import Mathlib

/-!
# Verification of the protein similarity-graph / label-propagation core

Shallow embedding of the algorithmic core of the Protein-Data-Analysis
repository (`backend/app/services/label_propagation_service.py`,
`backend/app/services/graph_service.py` and the all-pairs edge loop of
`backend/app/services/neo4j_service.py`), together with proofs and
refutations of the specification's claims about it.

Conventions of the embedding:
* Python `str` is `String`; label sets (`set` of strings) are `Finset String`;
  Python `float` arithmetic on ratios of small integers is modelled by `ℚ`
  (the code only forms quotients `m / n` of nonnegative integers and compares
  them to a threshold).
* Python dicts keyed by protein id are modelled either as total functions
  `String → α` built by `Function.update` folds (last write wins, exactly the
  dict-comprehension / assignment semantics) or as association lists when
  insertion order matters.
* In `_label_propagation` the dict `current_labels` has, at every iteration
  after the first, key set equal to `proteins = list(graph.keys())`, and on
  entry the caller (`propagate_labels` / `evaluate_propagation_quality`)
  constructs `initial_labels` and `graph` from the same records, so the keys
  coincide there as well.  The membership test `neighbor in current_labels`
  is therefore embedded as membership in the `proteins` list.
-/

namespace ProteinAnalysis

/-- A record returned by `get_proteins_for_label_propagation`:
`{"protein_id": ..., "labels": ..., "neighbors": ...}`. -/
structure ProteinData where
  protein_id : String
  labels : List String
  neighbors : List String
deriving DecidableEq

/-- A label state: for each protein id, its current label set
(`current_labels` in `_label_propagation`). -/
abbrev Labels := String → Finset String

/-- Generic embedding of a Python dict built by iterating over records and
assigning `d[key r] = f r` (later records overwrite earlier ones); missing
keys give `dflt`. -/
def assocFold {β : Type} {α : Type} (key : β → String) (f : β → α) (dflt : α)
    (data : List β) : String → α :=
  data.foldl (fun g r => Function.update g (key r) (f r)) (fun _ => dflt)

/-- `_build_graph`: adjacency dict `protein_id ↦ neighbors`. -/
def buildGraph (data : List ProteinData) : String → List String :=
  assocFold (·.protein_id) (·.neighbors) [] data

/-- `_extract_initial_labels`: dict `protein_id ↦ labels` (label lists). -/
def extractInitialLabels (data : List ProteinData) : String → List String :=
  assocFold (·.protein_id) (·.labels) [] data

/-- `list(graph.keys())` — under the distinct-protein-id assumption used by
all claims, the graph dict keys are exactly the record ids in input order. -/
def proteinIds (data : List ProteinData) : List String :=
  data.map (·.protein_id)

/-- The key set of the `neighbor_labels` counter built in one update of one
protein: iterating over `neighbors`, a neighbor present in `current_labels`
with a truthy (non-empty) label set contributes its labels as counter keys. -/
def counterKeys (proteins : List String) (cur : Labels) : List String → Finset String
  | [] => ∅
  | n :: rest =>
      (if n ∈ proteins ∧ (cur n).Nonempty then cur n else ∅) ∪
        counterKeys proteins cur rest

/-- The count stored in the `neighbor_labels` counter for a single label `l`:
one increment per neighbor that passes the membership-and-truthiness test and
holds `l`. -/
def neighborLabelCount (proteins : List String) (cur : Labels)
    (neighbors : List String) (l : String) : ℕ :=
  (neighbors.filter
      (fun n => decide (n ∈ proteins ∧ (cur n).Nonempty ∧ l ∈ cur n))).length

/-- Plain union of the neighbors' current label sets (the spec's description
of the update). -/
def neighborUnion (cur : Labels) : List String → Finset String
  | [] => ∅
  | n :: rest => cur n ∪ neighborUnion cur rest

/-- The body of the per-protein update in `_label_propagation`: keep the
current set when there are no neighbors; otherwise build the neighbor counter,
and if it is non-empty take its key set (the sort by count only permutes the
list that is immediately converted back to a set), else keep the current set. -/
def updateProtein (proteins : List String) (graph : String → List String)
    (cur : Labels) (p : String) : Finset String :=
  if graph p = [] then cur p
  else if counterKeys proteins cur (graph p) = ∅ then cur p
  else counterKeys proteins cur (graph p)

/-- One synchronous iteration of `_label_propagation`: `new_labels[p]` for
every protein `p`, all computed from the same snapshot `cur`. -/
def stepLabels (proteins : List String) (graph : String → List String)
    (cur : Labels) : Labels :=
  fun p => updateProtein proteins graph cur p

/-- The `changes` counter of one iteration: the number of proteins whose new
label set differs from the snapshot. -/
def stepChanges (proteins : List String) (graph : String → List String)
    (cur : Labels) : ℕ :=
  (proteins.filter
      (fun p => decide (stepLabels proteins graph cur p ≠ cur p))).length

/-- `convergence_rate = changes / len(proteins)`. -/
def convergenceRate (proteins : List String) (graph : String → List String)
    (cur : Labels) : ℚ :=
  (stepChanges proteins graph cur : ℚ) / (proteins.length : ℚ)

/-- The `for iteration in range(max_iterations)` loop of `_label_propagation`;
`iter` is the number of iterations already executed, the last argument the
number still allowed.  Returns `(current_labels, iterations_completed,
converged)`. -/
def lpRun (proteins : List String) (graph : String → List String)
    (threshold : ℚ) : Labels → ℕ → ℕ → Labels × ℕ × Bool
  | cur, iter, 0 => (cur, iter, false)
  | cur, iter, rem + 1 =>
      if convergenceRate proteins graph cur < threshold then
        (stepLabels proteins graph cur, iter + 1, true)
      else
        lpRun proteins graph threshold (stepLabels proteins graph cur)
          (iter + 1) rem

/-- `_label_propagation(graph, initial_labels, max_iterations, threshold)`:
converts the initial label lists to sets and runs the iteration loop. -/
def labelPropagation (proteins : List String) (graph : String → List String)
    (initialLabels : String → List String) (maxIter : ℕ) (threshold : ℚ) :
    Labels × ℕ × Bool :=
  lpRun proteins graph threshold (fun p => (initialLabels p).toFinset) 0 maxIter

/-! ## Basic lemmas about one iteration -/

theorem mem_counterKeys {proteins : List String} {cur : Labels} :
    ∀ {ns : List String} {l : String},
      l ∈ counterKeys proteins cur ns ↔ ∃ n ∈ ns, n ∈ proteins ∧ l ∈ cur n := by
  intro ns
  induction ns with
  | nil => simp [counterKeys]
  | cons n rest ih =>
      intro l
      by_cases hn : n ∈ proteins ∧ (cur n).Nonempty
      · simp only [counterKeys, if_pos hn, Finset.mem_union, ih, List.mem_cons]
        constructor
        · rintro (hl | ⟨m, hm, hmp, hml⟩)
          · exact ⟨n, Or.inl rfl, hn.1, hl⟩
          · exact ⟨m, Or.inr hm, hmp, hml⟩
        · rintro ⟨m, (rfl | hm), hmp, hml⟩
          · exact Or.inl hml
          · exact Or.inr ⟨m, hm, hmp, hml⟩
      · simp only [counterKeys, if_neg hn, Finset.empty_union, ih, List.mem_cons]
        constructor
        · rintro ⟨m, hm, hmp, hml⟩
          exact ⟨m, Or.inr hm, hmp, hml⟩
        · rintro ⟨m, (rfl | hm), hmp, hml⟩
          · exact absurd ⟨hmp, ⟨l, hml⟩⟩ hn
          · exact ⟨m, hm, hmp, hml⟩

theorem counterKeys_eq_neighborUnion {proteins : List String} {cur : Labels} :
    ∀ {ns : List String}, (∀ n ∈ ns, n ∈ proteins) →
      counterKeys proteins cur ns = neighborUnion cur ns := by
  intro ns
  induction ns with
  | nil => intro _; rfl
  | cons n rest ih =>
      intro h
      have hn : n ∈ proteins := h n (List.mem_cons_self n rest)
      have hrest : ∀ m ∈ rest, m ∈ proteins := fun m hm =>
        h m (List.mem_cons_of_mem n hm)
      by_cases hne : (cur n).Nonempty
      · simp [counterKeys, neighborUnion, if_pos (And.intro hn hne), ih hrest]
      · have : cur n = ∅ := Finset.not_nonempty_iff_eq_empty.mp hne
        simp [counterKeys, neighborUnion, hne, this, ih hrest]

theorem neighborLabelCount_pos_iff {proteins : List String} {cur : Labels}
    {ns : List String} {l : String} :
    0 < neighborLabelCount proteins cur ns l ↔
      ∃ n ∈ ns, n ∈ proteins ∧ l ∈ cur n := by
  unfold neighborLabelCount
  rw [List.length_pos]
  constructor
  · intro h
    obtain ⟨n, hn⟩ := List.exists_mem_of_ne_nil _ h
    have := List.of_mem_filter hn
    have hmem := List.mem_of_mem_filter hn
    simp only [decide_eq_true_eq] at this
    exact ⟨n, hmem, this.1, this.2.2⟩
  · rintro ⟨n, hn, hp, hl⟩
    intro hnil
    have : n ∈ List.filter
        (fun n => decide (n ∈ proteins ∧ (cur n).Nonempty ∧ l ∈ cur n)) ns := by
      apply List.mem_filter.mpr
      refine ⟨hn, ?_⟩
      simp only [decide_eq_true_eq]
      exact ⟨hp, ⟨l, hl⟩, hl⟩
    rw [hnil] at this
    exact absurd this (List.not_mem_nil n)

/-- **C1.** One iteration of the label propagation update computes, for each
protein, its new label set synchronously from the previous snapshot: if the
protein has no neighbors, or no neighbor holds any label, its label set is
unchanged; otherwise the new set is exactly the union of the neighbors'
current label sets, and membership in it is 1-1 with a positive frequency
tally — the tally's magnitudes have no effect on membership. -/
theorem c1_update_is_neighbor_union (proteins : List String)
    (graph : String → List String) (cur : Labels) (p : String)
    (hcl : ∀ n ∈ graph p, n ∈ proteins) :
    (stepLabels proteins graph cur p =
      if graph p = [] ∨ neighborUnion cur (graph p) = ∅ then cur p
      else neighborUnion cur (graph p)) ∧
    (∀ l, l ∈ stepLabels proteins graph cur p ↔
      (if graph p = [] ∨ neighborUnion cur (graph p) = ∅ then l ∈ cur p
       else 0 < neighborLabelCount proteins cur (graph p) l)) := by
  have hck : counterKeys proteins cur (graph p) = neighborUnion cur (graph p) :=
    counterKeys_eq_neighborUnion hcl
  constructor
  · unfold stepLabels updateProtein
    rw [hck]
    by_cases h1 : graph p = []
    · simp [h1]
    · by_cases h2 : neighborUnion cur (graph p) = ∅ <;> simp [h1, h2]
  · intro l
    unfold stepLabels updateProtein
    rw [hck]
    by_cases h1 : graph p = []
    · simp [h1]
    · by_cases h2 : neighborUnion cur (graph p) = ∅
      · simp [h1, h2]
      · simp only [if_neg h1, if_neg h2, or_iff_right h1, if_neg h2]
        rw [← hck, mem_counterKeys, neighborLabelCount_pos_iff]

/-- Witness for C1 on a concrete two-protein graph. -/
theorem c1_update_is_neighbor_union_witness :
    (∀ n ∈ (fun p => if p = "A" then ["B"] else if p = "B" then ["A"] else []) "A",
        n ∈ ["A", "B"]) ∧
    (stepLabels ["A", "B"]
        (fun p => if p = "A" then ["B"] else if p = "B" then ["A"] else [])
        (fun p => if p = "A" then {"x"} else if p = "B" then {"y"} else ∅) "A" =
      if (fun p => if p = "A" then ["B"] else if p = "B" then ["A"] else []) "A" = [] ∨
          neighborUnion
            (fun p => if p = "A" then {"x"} else if p = "B" then {"y"} else ∅)
            ((fun p => if p = "A" then ["B"] else if p = "B" then ["A"] else []) "A") = ∅
        then (fun p => if p = "A" then {"x"} else if p = "B" then {"y"} else ∅) "A"
        else neighborUnion
            (fun p => if p = "A" then {"x"} else if p = "B" then {"y"} else ∅)
            ((fun p => if p = "A" then ["B"] else if p = "B" then ["A"] else []) "A")) := by
  refine ⟨by decide, ?_⟩
  exact (c1_update_is_neighbor_union ["A", "B"]
    (fun p => if p = "A" then ["B"] else if p = "B" then ["A"] else [])
    (fun p => if p = "A" then {"x"} else if p = "B" then {"y"} else ∅)
    "A" (by decide)).1

/-! ## The iteration loop: termination and convergence bookkeeping -/

/-- Full characterisation of the `_label_propagation` loop: starting from
snapshot `cur` with `iter` iterations already done and `rem` remaining, the
returned iteration count is between `iter` and `iter + rem`, the returned
label state is the corresponding iterate of the synchronous step, a `true`
convergence flag means the rate of the last executed iteration was below the
threshold, and a `false` flag means the budget was exhausted with every
executed iteration's rate at or above the threshold. -/
theorem lpRun_spec (proteins : List String) (graph : String → List String)
    (threshold : ℚ) :
    ∀ (rem : ℕ) (cur : Labels) (iter : ℕ) (final : Labels) (iters : ℕ)
      (conv : Bool),
      lpRun proteins graph threshold cur iter rem = (final, iters, conv) →
      iter ≤ iters ∧ iters ≤ iter + rem ∧
      final = (stepLabels proteins graph)^[iters - iter] cur ∧
      (conv = true →
        iter < iters ∧
        convergenceRate proteins graph
          ((stepLabels proteins graph)^[iters - iter - 1] cur) < threshold) ∧
      (conv = false →
        iters = iter + rem ∧
        ∀ k < rem, ¬ convergenceRate proteins graph
            ((stepLabels proteins graph)^[k] cur) < threshold) := by
  intro rem
  induction rem with
  | zero =>
      intro cur iter final iters conv h
      simp only [lpRun] at h
      have hf : final = cur := (congrArg Prod.fst h).symm
      have hi : iters = iter := (congrArg (fun x => x.2.1) h).symm
      have hb : conv = false := (congrArg (fun x => x.2.2) h).symm
      subst hf hi hb
      refine ⟨le_refl _, by omega, by simp, ?_, ?_⟩
      · intro hc; exact absurd hc (by simp)
      · intro _; exact ⟨by omega, by omega⟩
  | succ rem ih =>
      intro cur iter final iters conv h
      simp only [lpRun] at h
      by_cases hc : convergenceRate proteins graph cur < threshold
      · rw [if_pos hc] at h
        have hf : final = stepLabels proteins graph cur := (congrArg Prod.fst h).symm
        have hi : iters = iter + 1 := (congrArg (fun x => x.2.1) h).symm
        have hb : conv = true := (congrArg (fun x => x.2.2) h).symm
        subst hf hi hb
        have e1 : iter + 1 - iter = 1 := by omega
        refine ⟨by omega, by omega, ?_, ?_, ?_⟩
        · rw [e1, Function.iterate_one]
        · intro _
          refine ⟨by omega, ?_⟩
          have e2 : iter + 1 - iter - 1 = 0 := by omega
          rw [e2, Function.iterate_zero_apply]
          exact hc
        · intro hfalse; exact absurd hfalse (by simp)
      · rw [if_neg hc] at h
        obtain ⟨h1, h2, h3, h4, h5⟩ := ih (stepLabels proteins graph cur)
          (iter + 1) final iters conv h
        refine ⟨by omega, by omega, ?_, ?_, ?_⟩
        · have e1 : iters - iter = (iters - (iter + 1)) + 1 := by omega
          rw [e1, Function.iterate_succ_apply]
          exact h3
        · intro hconv
          obtain ⟨hlt, hrate⟩ := h4 hconv
          refine ⟨by omega, ?_⟩
          have e2 : iters - iter - 1 = (iters - (iter + 1) - 1) + 1 := by omega
          rw [e2, Function.iterate_succ_apply]
          exact hrate
        · intro hconv
          obtain ⟨heq, hall⟩ := h5 hconv
          refine ⟨by omega, ?_⟩
          intro k hk
          cases k with
          | zero =>
              rw [Function.iterate_zero_apply]
              exact hc
          | succ j =>
              rw [Function.iterate_succ_apply]
              exact hall j (by omega)

/-- **C3.** On a non-empty protein list with `max_iterations ≥ 1`,
`_label_propagation` terminates (it is a total function of its fuel) and
returns `(final_labels, iterations_completed, converged)` with
`iterations_completed ≤ max_iterations` (and at least 1); `converged = true`
implies the convergence rate computed at iteration `iterations_completed`
(from the snapshot after `iterations_completed - 1` iterations) was strictly
below the threshold; `converged = false` implies
`iterations_completed = max_iterations` and no iteration's rate was below the
threshold. -/
theorem c3_terminates_within_max_iterations (proteins : List String)
    (graph : String → List String) (initialLabels : String → List String)
    (maxIter : ℕ) (threshold : ℚ)
    (_hne : proteins ≠ []) (hmax : 1 ≤ maxIter) :
    (labelPropagation proteins graph initialLabels maxIter threshold).2.1 ≤ maxIter ∧
    1 ≤ (labelPropagation proteins graph initialLabels maxIter threshold).2.1 ∧
    ((labelPropagation proteins graph initialLabels maxIter threshold).2.2 = true →
      convergenceRate proteins graph
        ((stepLabels proteins graph)^[(labelPropagation proteins graph
            initialLabels maxIter threshold).2.1 - 1]
          (fun p => (initialLabels p).toFinset)) < threshold) ∧
    ((labelPropagation proteins graph initialLabels maxIter threshold).2.2 = false →
      (labelPropagation proteins graph initialLabels maxIter threshold).2.1 = maxIter ∧
      ∀ k < maxIter, ¬ convergenceRate proteins graph
          ((stepLabels proteins graph)^[k]
            (fun p => (initialLabels p).toFinset)) < threshold) := by
  obtain ⟨h1, h2, _h3, h4, h5⟩ := lpRun_spec proteins graph threshold maxIter
    (fun p => (initialLabels p).toFinset) 0
    (labelPropagation proteins graph initialLabels maxIter threshold).1
    (labelPropagation proteins graph initialLabels maxIter threshold).2.1
    (labelPropagation proteins graph initialLabels maxIter threshold).2.2
    rfl
  refine ⟨by omega, ?_, ?_, ?_⟩
  · cases hcb : (labelPropagation proteins graph initialLabels maxIter threshold).2.2
    · obtain ⟨heq, _⟩ := h5 hcb; omega
    · obtain ⟨hlt, _⟩ := h4 hcb; omega
  · intro hconv
    obtain ⟨_, hrate⟩ := h4 hconv
    simpa using hrate
  · intro hconv
    obtain ⟨heq, hall⟩ := h5 hconv
    exact ⟨by omega, hall⟩

/-- The chain graph `A — B — C` of the spec's Scenario B. -/
def c3Graph : String → List String :=
  fun p =>
    if p = "A" then ["B"]
    else if p = "B" then ["A", "C"]
    else if p = "C" then ["B"] else []

/-- Scenario B seed labels: `A ↦ ["1.1.1.1"]`, `C ↦ ["2.2.2.2"]`, `B ↦ []`. -/
def c3Init : String → List String :=
  fun p =>
    if p = "A" then ["1.1.1.1"]
    else if p = "C" then ["2.2.2.2"] else []

/-- Witness for C3 on the spec's Scenario B (`max_iterations = 10`,
`threshold = 0.01`). -/
theorem c3_terminates_within_max_iterations_witness :
    (["A", "B", "C"] : List String) ≠ [] ∧ 1 ≤ 10 ∧
    ((labelPropagation ["A", "B", "C"] c3Graph c3Init 10 (1/100)).2.1 ≤ 10 ∧
     1 ≤ (labelPropagation ["A", "B", "C"] c3Graph c3Init 10 (1/100)).2.1 ∧
     ((labelPropagation ["A", "B", "C"] c3Graph c3Init 10 (1/100)).2.2 = true →
       convergenceRate ["A", "B", "C"] c3Graph
         ((stepLabels ["A", "B", "C"] c3Graph)^[(labelPropagation ["A", "B", "C"]
             c3Graph c3Init 10 (1/100)).2.1 - 1]
           (fun p => (c3Init p).toFinset)) < 1/100) ∧
     ((labelPropagation ["A", "B", "C"] c3Graph c3Init 10 (1/100)).2.2 = false →
       (labelPropagation ["A", "B", "C"] c3Graph c3Init 10 (1/100)).2.1 = 10 ∧
       ∀ k < 10, ¬ convergenceRate ["A", "B", "C"] c3Graph
           ((stepLabels ["A", "B", "C"] c3Graph)^[k]
             (fun p => (c3Init p).toFinset)) < 1/100)) :=
  ⟨by decide, by decide,
    c3_terminates_within_max_iterations ["A", "B", "C"] c3Graph c3Init 10 (1/100)
      (by decide) (by decide)⟩

/-! ## C2: monotonic growth fails; non-emptiness is what is monotone -/

/-- Concrete two-node graph `A — B` for the C2 counterexample. -/
def c2Graph : String → List String :=
  fun p => if p = "A" then ["B"] else if p = "B" then ["A"] else []

/-- Concrete label state for the C2 counterexample:
`A ↦ {"x", "y"}`, `B ↦ {"z"}`. -/
def c2Labels : Labels :=
  fun p => if p = "A" then {"x", "y"} else if p = "B" then {"z"} else ∅

/-- **C2 counterexample.** On the two-node graph `A — B` with
`A ↦ {"x","y"}`, `B ↦ {"z"}`, one iteration replaces `A`'s label set by
`{"z"}`: the new set is not a superset of the old one and its size strictly
decreases, refuting both parts of the claim. -/
theorem c2_counterexample_label_set_shrinks :
    stepLabels ["A", "B"] c2Graph c2Labels "A" = {"z"} ∧
    ¬ c2Labels "A" ⊆ stepLabels ["A", "B"] c2Graph c2Labels "A" ∧
    (stepLabels ["A", "B"] c2Graph c2Labels "A").card < (c2Labels "A").card := by
  decide

/-- **C2 amended.** A protein's label set need not grow across iterations —
it is replaced wholesale by the union of its neighbors' labels and can lose
labels or shrink (see the counterexample).  What is monotone is
non-emptiness: a protein with a non-empty label set has a non-empty label
set after every further iteration, so the set of annotated proteins never
loses a member. -/
theorem c2_amended_nonempty_is_monotone (proteins : List String)
    (graph : String → List String) (cur : Labels) (p : String)
    (h : (cur p).Nonempty) : (stepLabels proteins graph cur p).Nonempty := by
  unfold stepLabels updateProtein
  by_cases h1 : graph p = []
  · simpa [h1] using h
  · by_cases h2 : counterKeys proteins cur (graph p) = ∅
    · simpa [h1, h2] using h
    · simp only [if_neg h1, if_neg h2]
      exact Finset.nonempty_iff_ne_empty.mpr h2

/-- Witness for the amended C2 on a concrete input. -/
theorem c2_amended_nonempty_is_monotone_witness :
    (c2Labels "A").Nonempty ∧
    (stepLabels ["A", "B"] c2Graph c2Labels "A").Nonempty :=
  ⟨by decide,
    c2_amended_nonempty_is_monotone ["A", "B"] c2Graph c2Labels "A" (by decide)⟩

/-! ## C6: fixed points are idempotent -/

/-- Concrete two-node graph `A — B` for the C6 witness. -/
def c6Graph : String → List String :=
  fun p => if p = "A" then ["B"] else if p = "B" then ["A"] else []

/-- Concrete label state that is a fixed point on `c6Graph`. -/
def c6Labels : Labels := fun _ => {"x"}

/-- **C6.** If every protein's label set already equals the union of its
neighbors' label sets, one further iteration changes no protein's label set:
the change counter is zero, the convergence rate is zero, and the update is
the identity on every protein. -/
theorem c6_fixed_point_idempotent (proteins : List String)
    (graph : String → List String) (cur : Labels)
    (hcl : ∀ p ∈ proteins, ∀ n ∈ graph p, n ∈ proteins)
    (hfix : ∀ p ∈ proteins, cur p = neighborUnion cur (graph p)) :
    stepChanges proteins graph cur = 0 ∧
    convergenceRate proteins graph cur = 0 ∧
    ∀ p ∈ proteins, stepLabels proteins graph cur p = cur p := by
  have hstep : ∀ p ∈ proteins, stepLabels proteins graph cur p = cur p := by
    intro p hp
    have hck : counterKeys proteins cur (graph p) = neighborUnion cur (graph p) :=
      counterKeys_eq_neighborUnion (hcl p hp)
    unfold stepLabels updateProtein
    rw [hck, ← hfix p hp]
    split_ifs <;> rfl
  have hchanges : stepChanges proteins graph cur = 0 := by
    unfold stepChanges
    rw [List.length_eq_zero, List.filter_eq_nil_iff]
    intro p hp
    simp [hstep p hp]
  refine ⟨hchanges, ?_, hstep⟩
  unfold convergenceRate
  rw [hchanges]
  simp

/-- Witness for C6: the all-`{"x"}` state on the graph `A — B` is a fixed
point and produces zero changes. -/
theorem c6_fixed_point_idempotent_witness :
    (∀ p ∈ ["A", "B"], ∀ n ∈ c6Graph p, n ∈ ["A", "B"]) ∧
    (∀ p ∈ ["A", "B"], c6Labels p = neighborUnion c6Labels (c6Graph p)) ∧
    stepChanges ["A", "B"] c6Graph c6Labels = 0 ∧
    convergenceRate ["A", "B"] c6Graph c6Labels = 0 ∧
    ∀ p ∈ ["A", "B"], stepLabels ["A", "B"] c6Graph c6Labels p = c6Labels p := by
  have h1 : ∀ p ∈ ["A", "B"], ∀ n ∈ c6Graph p, n ∈ ["A", "B"] := by decide
  have h2 : ∀ p ∈ ["A", "B"], c6Labels p = neighborUnion c6Labels (c6Graph p) := by
    decide
  obtain ⟨a, b, c⟩ := c6_fixed_point_idempotent ["A", "B"] c6Graph c6Labels h1 h2
  exact ⟨h1, h2, a, b, c⟩

/-! ## `propagate_labels`: guards, confidence scoring, divisions -/

/-- `get_proteins_for_label_propagation`: the attr check (raising
`ValueError("Attribute must be 'ec' or 'go'")`) precedes issuing the graph
query; `store` stands for the external graph store's response to the query
for the given attr. -/
def getProteinsForLabelPropagation (attr : String)
    (store : List ProteinData) : Except String (List ProteinData) :=
  if attr = "ec" then Except.ok store
  else if attr = "go" then Except.ok store
  else Except.error "Attribute must be 'ec' or 'go'"

/-- The algorithmic part of `propagate_labels`: fetch the snapshot, fail on
an empty snapshot, otherwise build the graph and initial labels and run
`_label_propagation`.  (The confidence scoring and the database write-back
that follow are modelled by `calculateConfidenceScores` and are outside the
returned value.) -/
def propagateLabels (attr : String) (store : List ProteinData)
    (maxIter : ℕ) (threshold : ℚ) :
    Except String (List (String × Finset String) × ℕ × Bool) :=
  (getProteinsForLabelPropagation attr store).bind (fun proteinsData =>
    if proteinsData = [] then
      Except.error "No proteins found for label propagation"
    else
      let graph := buildGraph proteinsData
      let init := extractInitialLabels proteinsData
      let ids := proteinIds proteinsData
      let r := labelPropagation ids graph init maxIter threshold
      Except.ok (ids.map (fun p => (p, r.1 p)), r.2.1, r.2.2))

/-- Helper: a successful `propagate_labels` run implies the attr was
valid and the store returned at least one protein. -/
theorem propagateLabels_ok_inv (attr : String) (store : List ProteinData)
    (maxIter : ℕ) (threshold : ℚ)
    (r : List (String × Finset String) × ℕ × Bool)
    (h : propagateLabels attr store maxIter threshold = Except.ok r) :
    (attr = "ec" ∨ attr = "go") ∧ store ≠ [] := by
  unfold propagateLabels getProteinsForLabelPropagation at h
  by_cases h1 : attr = "ec"
  · by_cases h2 : store = [] <;> simp [h1, h2, Except.bind] at h
    exact ⟨Or.inl h1, h2⟩
  · by_cases h2 : attr = "go"
    · by_cases h3 : store = [] <;> simp [h1, h2, h3, Except.bind] at h
      exact ⟨Or.inr h2, h3⟩
    · simp [h1, h2, Except.bind] at h

/-- **C9.** With an attr outside `{"ec","go"}`, label propagation fails
with the attr error without consulting the store's response (the result
is the same for every store response); with a valid attr but an empty
store response it fails with the empty-input error; and a successful result
is only possible with a valid attr and a non-empty store response. -/
theorem c9_error_on_bad_attribute_or_empty_store (attr : String)
    (store : List ProteinData) (maxIter : ℕ) (threshold : ℚ) :
    (attr ≠ "ec" → attr ≠ "go" →
      propagateLabels attr store maxIter threshold =
        Except.error "Attribute must be 'ec' or 'go'" ∧
      ∀ store', getProteinsForLabelPropagation attr store =
        getProteinsForLabelPropagation attr store') ∧
    (attr = "ec" ∨ attr = "go" → store = [] →
      propagateLabels attr store maxIter threshold =
        Except.error "No proteins found for label propagation") ∧
    (∀ r, propagateLabels attr store maxIter threshold = Except.ok r →
      (attr = "ec" ∨ attr = "go") ∧ store ≠ []) := by
  refine ⟨?_, ?_, ?_⟩
  · intro h1 h2
    constructor
    · unfold propagateLabels getProteinsForLabelPropagation
      simp [h1, h2, Except.bind]
    · intro store'
      unfold getProteinsForLabelPropagation
      simp [h1, h2]
  · intro hv he
    unfold propagateLabels getProteinsForLabelPropagation
    rcases hv with h | h <;> simp [h, he, Except.bind]
  · intro r h
    exact propagateLabels_ok_inv attr store maxIter threshold r h

/-- Witness for C9 at concrete inputs: the attr `"xx"` is rejected, and
`"ec"` with an empty store response is rejected. -/
theorem c9_error_on_bad_attribute_or_empty_store_witness :
    ("xx" ≠ "ec") ∧ ("xx" ≠ "go") ∧
    propagateLabels "xx" [⟨"A", ["l"], []⟩] 5 (1/100) =
      Except.error "Attribute must be 'ec' or 'go'" ∧
    propagateLabels "ec" [] 5 (1/100) =
      Except.error "No proteins found for label propagation" := by
  have h1 :=
    ((c9_error_on_bad_attribute_or_empty_store "xx" [⟨"A", ["l"], []⟩] 5
      (1/100)).1 (by decide) (by decide)).1
  have h2 :=
    (c9_error_on_bad_attribute_or_empty_store "ec" [] 5 (1/100)).2.1
      (Or.inl rfl) rfl
  exact ⟨by decide, by decide, h1, h2⟩

/-- `holdout_size = max(1, len(initially_annotated) // 5)` in
`evaluate_propagation_quality`. -/
def holdoutSize (n : ℕ) : ℕ := max 1 (n / 5)

/-- The accuracy computation of `evaluate_propagation_quality`:
`correct / total if total > 0 else 0`. -/
def accuracyOf (correct total : ℕ) : ℚ :=
  if 0 < total then (correct : ℚ) / (total : ℚ) else 0

/-- **C10.** Every division on the propagation and evaluation paths has a
positive divisor or is guarded: a successful `propagate_labels` run implies
the protein snapshot (and hence the `len(proteins)` divisor of the
convergence rate) is positive; the holdout size `max(1, n // 5)` dividing
the coverage is always at least 1; and the accuracy division is only taken
when `total_predictions > 0`, with `0` returned otherwise. -/
theorem c10_division_guards (attr : String) (store : List ProteinData)
    (maxIter : ℕ) (threshold : ℚ) :
    (∀ r, propagateLabels attr store maxIter threshold = Except.ok r →
        0 < (proteinIds store).length) ∧
    (∀ n, 1 ≤ holdoutSize n) ∧
    (∀ c, accuracyOf c 0 = 0) ∧
    (∀ c t, 0 < t → accuracyOf c t = (c : ℚ) / (t : ℚ)) := by
  refine ⟨?_, ?_, ?_, ?_⟩
  · intro r h
    have hne := (propagateLabels_ok_inv attr store maxIter threshold r h).2
    simpa [proteinIds] using List.length_pos.mpr hne
  · intro n
    exact le_max_left 1 (n / 5)
  · intro c
    simp [accuracyOf]
  · intro c t ht
    simp [accuracyOf, ht]

/-- Witness for C10 on a concrete successful run and concrete counts. -/
theorem c10_division_guards_witness :
    propagateLabels "ec" [⟨"A", ["l"], []⟩] 1 (1/100) =
      Except.ok ([("A", {"l"})], 1, true) ∧
    0 < (proteinIds [⟨"A", ["l"], []⟩]).length ∧
    1 ≤ holdoutSize 0 ∧
    accuracyOf 5 0 = 0 ∧
    accuracyOf 1 2 = (1 : ℚ) / 2 := by
  have hch : stepChanges ["A"]
      (buildGraph [⟨"A", ["l"], []⟩])
      (fun p => (extractInitialLabels [⟨"A", ["l"], []⟩] p).toFinset) = 0 := by
    decide
  have hcr : convergenceRate ["A"] (buildGraph [⟨"A", ["l"], []⟩])
      (fun p => (extractInitialLabels [⟨"A", ["l"], []⟩] p).toFinset) < 1/100 := by
    rw [convergenceRate, hch]
    norm_num
  have hloop : lpRun ["A"] (buildGraph [⟨"A", ["l"], []⟩]) (1/100)
      (fun p => (extractInitialLabels [⟨"A", ["l"], []⟩] p).toFinset) 0 1 =
      (stepLabels ["A"] (buildGraph [⟨"A", ["l"], []⟩])
        (fun p => (extractInitialLabels [⟨"A", ["l"], []⟩] p).toFinset),
       1, true) := by
    show (if convergenceRate ["A"] (buildGraph [⟨"A", ["l"], []⟩])
            (fun p => (extractInitialLabels [⟨"A", ["l"], []⟩] p).toFinset) < 1/100
          then (stepLabels ["A"] (buildGraph [⟨"A", ["l"], []⟩])
              (fun p => (extractInitialLabels [⟨"A", ["l"], []⟩] p).toFinset),
            0 + 1, true)
          else lpRun ["A"] (buildGraph [⟨"A", ["l"], []⟩]) (1/100)
            (stepLabels ["A"] (buildGraph [⟨"A", ["l"], []⟩])
              (fun p => (extractInitialLabels [⟨"A", ["l"], []⟩] p).toFinset))
            (0 + 1) 0) = _
    rw [if_pos hcr]
  have hstep : stepLabels ["A"] (buildGraph [⟨"A", ["l"], []⟩])
      (fun p => (extractInitialLabels [⟨"A", ["l"], []⟩] p).toFinset) "A" =
      {"l"} := by decide
  have hrun : propagateLabels "ec" [⟨"A", ["l"], []⟩] 1 (1/100) =
      Except.ok ([("A", {"l"})], 1, true) := by
    simp only [propagateLabels, getProteinsForLabelPropagation, Except.bind,
      labelPropagation, proteinIds, List.map_cons, List.map_nil]
    norm_num [hloop, hstep]
  have h := c10_division_guards "ec" [⟨"A", ["l"], []⟩] 1 (1/100)
  exact ⟨hrun, h.1 ([("A", {"l"})], 1, true) hrun, h.2.1 0, h.2.2.1 5,
    h.2.2.2 1 2 (by norm_num)⟩

/-- `_calculate_confidence_scores(final_labels, initial_labels)`: score 0.0
for an empty final label list, else 1.0 when `initial_labels.get(protein_id)`
is truthy (a non-empty list), else 0.5. -/
def calculateConfidenceScores (finalLabels : List (String × List String))
    (initialLabels : String → List String) : List (String × ℚ) :=
  finalLabels.map (fun e =>
    (e.1, if e.2 = [] then (0 : ℚ)
          else if initialLabels e.1 ≠ [] then 1 else 1/2))

/-- **C8.** The confidence score computed for each protein of the final
assignment is exactly 0.0 when its final label set is empty, else 1.0 when
its seed label set was non-empty, else 0.5; consequently every score lies in
`{0.0, 0.5, 1.0}`. -/
theorem c8_confidence_three_point_scale
    (finalLabels : List (String × List String))
    (initialLabels : String → List String) :
    (calculateConfidenceScores finalLabels initialLabels).length =
      finalLabels.length ∧
    (∀ i, (hi : i < finalLabels.length) →
      (hj : i < (calculateConfidenceScores finalLabels initialLabels).length) →
      (calculateConfidenceScores finalLabels initialLabels).get ⟨i, hj⟩ =
        ((finalLabels.get ⟨i, hi⟩).1,
          if (finalLabels.get ⟨i, hi⟩).2 = [] then (0 : ℚ)
          else if initialLabels (finalLabels.get ⟨i, hi⟩).1 ≠ [] then 1
          else 1/2)) ∧
    (∀ p s, (p, s) ∈ calculateConfidenceScores finalLabels initialLabels →
      s = 0 ∨ s = 1/2 ∨ s = 1) := by
  refine ⟨List.length_map _ _, ?_, ?_⟩
  · intro i hi hj
    unfold calculateConfidenceScores
    rw [List.get_eq_getElem, List.get_eq_getElem, List.getElem_map]
  · intro p s hmem
    unfold calculateConfidenceScores at hmem
    obtain ⟨e, _, he⟩ := List.mem_map.mp hmem
    have hs : s = if e.2 = [] then (0 : ℚ)
        else if initialLabels e.1 ≠ [] then 1 else 1/2 :=
      (congrArg Prod.snd he).symm
    rw [hs]
    split_ifs
    · exact Or.inl rfl
    · exact Or.inr (Or.inr rfl)
    · exact Or.inr (Or.inl rfl)

/-- Concrete final assignment for the C8 witness. -/
def c8Final : List (String × List String) :=
  [("A", ["x"]), ("B", []), ("C", ["y"])]

/-- Concrete seed labels for the C8 witness: only `A` was seeded. -/
def c8Init : String → List String :=
  fun p => if p = "A" then ["x"] else []

/-- Witness for C8: on `c8Final`/`c8Init` the computed scores are 1.0 for
the seeded protein, 0.0 for the unlabelled one, 0.5 for the diffused one. -/
theorem c8_confidence_three_point_scale_witness :
    (calculateConfidenceScores c8Final c8Init).length = c8Final.length ∧
    (calculateConfidenceScores c8Final c8Init).get ⟨0, by decide⟩ =
      ("A", (1 : ℚ)) ∧
    (calculateConfidenceScores c8Final c8Init).get ⟨1, by decide⟩ =
      ("B", (0 : ℚ)) ∧
    (calculateConfidenceScores c8Final c8Init).get ⟨2, by decide⟩ =
      ("C", (1/2 : ℚ)) ∧
    (((1/2 : ℚ) = 0) ∨ ((1/2 : ℚ) = 1/2) ∨ ((1/2 : ℚ) = 1)) := by
  have h := c8_confidence_three_point_scale c8Final c8Init
  have hlist : calculateConfidenceScores c8Final c8Init =
      [("A", (1 : ℚ)), ("B", (0 : ℚ)), ("C", (1/2 : ℚ))] := rfl
  have hmem : ("C", (1/2 : ℚ)) ∈ calculateConfidenceScores c8Final c8Init := by
    rw [hlist]
    exact List.mem_cons_of_mem _ (List.mem_cons_of_mem _ (List.mem_cons_self _ _))
  refine ⟨h.1, ?_, ?_, ?_, h.2.2 "C" (1/2) hmem⟩
  · exact (h.2.1 0 (by decide) (by decide)).trans rfl
  · exact (h.2.1 1 (by decide) (by decide)).trans rfl
  · exact (h.2.1 2 (by decide) (by decide)).trans rfl

/-! ## Dict lemmas: reading back `Function.update` folds -/

theorem foldl_update_apply_of_not_mem {β : Type} {α : Type}
    (key : β → String) (f : β → α) :
    ∀ (data : List β) (g : String → α) (q : String),
      (∀ r ∈ data, key r ≠ q) →
      List.foldl (fun g r => Function.update g (key r) (f r)) g data q = g q := by
  intro data
  induction data with
  | nil => intro g q _; rfl
  | cons r rest ih =>
      intro g q h
      rw [List.foldl_cons, ih _ q (fun s hs => h s (List.mem_cons_of_mem r hs))]
      exact Function.update_noteq (Ne.symm (h r (List.mem_cons_self r rest))) _ _

theorem foldl_update_apply_of_mem {β : Type} {α : Type}
    (key : β → String) (f : β → α) :
    ∀ (data : List β) (g : String → α) (r0 : β) (q : String),
      (data.map key).Nodup → r0 ∈ data → key r0 = q →
      List.foldl (fun g r => Function.update g (key r) (f r)) g data q = f r0 := by
  intro data
  induction data with
  | nil => intro g r0 q _ hm; exact absurd hm (List.not_mem_nil r0)
  | cons r rest ih =>
      intro g r0 q hnd hm hk
      rw [List.map_cons, List.nodup_cons] at hnd
      obtain ⟨hni, hnd'⟩ := hnd
      rw [List.foldl_cons]
      rcases List.mem_cons.mp hm with rfl | hm'
      · have hrest : ∀ s ∈ rest, key s ≠ q := by
          intro s hs hc
          exact hni (hk ▸ hc ▸ List.mem_map_of_mem key hs)
        rw [foldl_update_apply_of_not_mem key f rest _ q hrest, ← hk]
        exact Function.update_same _ _ _
      · exact ih _ r0 q hnd' hm' hk

theorem extractInitialLabels_apply_of_mem {data : List ProteinData}
    {pr : ProteinData} (hnd : (data.map (·.protein_id)).Nodup)
    (hm : pr ∈ data) :
    extractInitialLabels data pr.protein_id = pr.labels := by
  unfold extractInitialLabels assocFold
  exact foldl_update_apply_of_mem (·.protein_id) (·.labels) data _ pr _ hnd hm rfl

/-! ## The masking step of `evaluate_propagation_quality` -/

/-- The inner masking loop: find the first record with the given id, blank
its labels, stop (`break`). -/
def maskOne (pid : String) : List ProteinData → List ProteinData
  | [] => []
  | pr :: rest =>
      if pr.protein_id = pid then { pr with labels := [] } :: rest
      else pr :: maskOne pid rest

/-- The outer masking loop over the holdout sample. -/
def maskAll (data holdout : List ProteinData) : List ProteinData :=
  holdout.foldl (fun d pr => maskOne pr.protein_id d) data

/-- Pointwise description of masking a set of ids at once. -/
def maskWith (pids : List String) (pr : ProteinData) : ProteinData :=
  if pr.protein_id ∈ pids then { pr with labels := [] } else pr

theorem maskWith_protein_id (pids : List String) (pr : ProteinData) :
    (maskWith pids pr).protein_id = pr.protein_id := by
  unfold maskWith; split <;> rfl

theorem maskWith_neighbors (pids : List String) (pr : ProteinData) :
    (maskWith pids pr).neighbors = pr.neighbors := by
  unfold maskWith; split <;> rfl

theorem maskWith_labels_of_mem {pids : List String} {pr : ProteinData}
    (h : pr.protein_id ∈ pids) : (maskWith pids pr).labels = [] := by
  unfold maskWith; rw [if_pos h]

theorem maskWith_of_not_mem {pids : List String} {pr : ProteinData}
    (h : pr.protein_id ∉ pids) : maskWith pids pr = pr := by
  unfold maskWith; rw [if_neg h]

theorem map_maskWith_eq_self (pids : List String) :
    ∀ (data : List ProteinData), (∀ s ∈ data, s.protein_id ∉ pids) →
      data.map (maskWith pids) = data := by
  intro data
  induction data with
  | nil => intro _; rfl
  | cons r rest ih =>
      intro h
      rw [List.map_cons, maskWith_of_not_mem (h r (List.mem_cons_self r rest)),
        ih (fun s hs => h s (List.mem_cons_of_mem r hs))]

theorem map_protein_id_map_maskWith (pids : List String) :
    ∀ (data : List ProteinData),
      ((data.map (maskWith pids)).map (·.protein_id)) = data.map (·.protein_id) := by
  intro data
  induction data with
  | nil => rfl
  | cons r rest ih =>
      rw [List.map_cons, List.map_cons, List.map_cons, maskWith_protein_id, ih]

theorem maskOne_eq_map (pid : String) :
    ∀ (data : List ProteinData), (data.map (·.protein_id)).Nodup →
      maskOne pid data = data.map (maskWith [pid]) := by
  intro data
  induction data with
  | nil => intro _; rfl
  | cons pr rest ih =>
      intro hnd
      rw [List.map_cons, List.nodup_cons] at hnd
      obtain ⟨hni, hnd'⟩ := hnd
      by_cases hh : pr.protein_id = pid
      · have h1 : maskWith [pid] pr = { pr with labels := [] } := by
          unfold maskWith
          rw [if_pos (show pr.protein_id ∈ [pid] by simp [hh])]
        have h2 : rest.map (maskWith [pid]) = rest := by
          apply map_maskWith_eq_self
          intro s hs hc
          have hspid : s.protein_id = pid := by simpa using hc
          have hmem : s.protein_id ∈ rest.map (·.protein_id) :=
            List.mem_map_of_mem (·.protein_id) hs
          rw [hspid, ← hh] at hmem
          exact hni hmem
        unfold maskOne
        rw [if_pos hh, List.map_cons, h1, h2]
      · unfold maskOne
        rw [if_neg hh, List.map_cons,
          maskWith_of_not_mem (by simp only [List.mem_singleton]; exact hh),
          ih hnd']

theorem maskWith_maskWith (s : String) (pids : List String) (pr : ProteinData) :
    maskWith pids (maskWith [s] pr) = maskWith (s :: pids) pr := by
  by_cases h1 : pr.protein_id ∈ ([s] : List String)
  · have hs : pr.protein_id = s := by simpa using h1
    have hmem : pr.protein_id ∈ s :: pids := by simp [hs]
    unfold maskWith
    rw [if_pos h1, if_pos hmem]
    by_cases h2 : ({ pr with labels := [] } : ProteinData).protein_id ∈ pids
    · rw [if_pos h2]
    · rw [if_neg h2]
  · rw [maskWith_of_not_mem h1]
    by_cases h2 : pr.protein_id ∈ pids
    · have hmem : pr.protein_id ∈ s :: pids := List.mem_cons_of_mem _ h2
      unfold maskWith
      rw [if_pos h2, if_pos hmem]
    · have hmem : pr.protein_id ∉ s :: pids := by
        intro hc
        rcases List.mem_cons.mp hc with h | h
        · exact h1 (by simp [h])
        · exact h2 h
      rw [maskWith_of_not_mem h2, maskWith_of_not_mem hmem]

theorem maskAll_eq_map :
    ∀ (sample data : List ProteinData), (data.map (·.protein_id)).Nodup →
      maskAll data sample = data.map (maskWith (sample.map (·.protein_id))) := by
  intro sample
  induction sample with
  | nil =>
      intro data _
      exact (map_maskWith_eq_self [] data (by simp)).symm
  | cons s rest ih =>
      intro data hnd
      have h1 : maskAll data (s :: rest) =
          maskAll (data.map (maskWith [s.protein_id])) rest := by
        unfold maskAll
        rw [List.foldl_cons, maskOne_eq_map s.protein_id data hnd]
      have hnd' : ((data.map (maskWith [s.protein_id])).map (·.protein_id)).Nodup := by
        rw [map_protein_id_map_maskWith]; exact hnd
      rw [h1, ih _ hnd', List.map_map, List.map_cons]
      apply List.map_congr_left
      intro r _
      exact maskWith_maskWith s.protein_id (rest.map (·.protein_id)) r

theorem foldl_update_map {β : Type} {α : Type} (key : β → String) (f : β → α)
    (h : β → β) (hk : ∀ r, key (h r) = key r) (hf : ∀ r, f (h r) = f r) :
    ∀ (data : List β) (g : String → α),
      List.foldl (fun g r => Function.update g (key r) (f r)) g (data.map h) =
      List.foldl (fun g r => Function.update g (key r) (f r)) g data := by
  intro data
  induction data with
  | nil => intro _; rfl
  | cons r rest ih =>
      intro g
      rw [List.map_cons, List.foldl_cons, List.foldl_cons, hk, hf]
      exact ih _

/-- Masking changes no record's id or neighbor list, so the graph built from
the masked snapshot is the graph built from the original snapshot. -/
theorem buildGraph_maskAll (data sample : List ProteinData)
    (hnd : (data.map (·.protein_id)).Nodup) :
    buildGraph (maskAll data sample) = buildGraph data := by
  rw [maskAll_eq_map sample data hnd]
  unfold buildGraph assocFold
  exact foldl_update_map (·.protein_id) (·.neighbors)
    (maskWith (sample.map (·.protein_id)))
    (maskWith_protein_id _) (maskWith_neighbors _) data _

theorem proteinIds_maskAll (data sample : List ProteinData)
    (hnd : (data.map (·.protein_id)).Nodup) :
    proteinIds (maskAll data sample) = proteinIds data := by
  rw [maskAll_eq_map sample data hnd]
  unfold proteinIds
  exact map_protein_id_map_maskWith _ data

/-- A held-out protein's initial labels are blanked by the masking loop. -/
theorem extract_maskAll_of_mem_sample (data sample : List ProteinData)
    (hnd : (data.map (·.protein_id)).Nodup) (pr : ProteinData)
    (hpr : pr ∈ data) (hs : pr.protein_id ∈ sample.map (·.protein_id)) :
    extractInitialLabels (maskAll data sample) pr.protein_id = [] := by
  rw [maskAll_eq_map sample data hnd]
  have hnd' : ((data.map (maskWith (sample.map (·.protein_id)))).map
      (·.protein_id)).Nodup := by
    rw [map_protein_id_map_maskWith]; exact hnd
  have hmem := List.mem_map_of_mem (maskWith (sample.map (·.protein_id))) hpr
  have h := extractInitialLabels_apply_of_mem hnd' hmem
  rw [maskWith_protein_id] at h
  rw [h]
  exact maskWith_labels_of_mem hs

/-- A protein outside the holdout keeps its initial labels. -/
theorem extract_maskAll_of_not_mem_sample (data sample : List ProteinData)
    (hnd : (data.map (·.protein_id)).Nodup) (pr : ProteinData)
    (hpr : pr ∈ data) (hs : pr.protein_id ∉ sample.map (·.protein_id)) :
    extractInitialLabels (maskAll data sample) pr.protein_id = pr.labels := by
  rw [maskAll_eq_map sample data hnd]
  have hnd' : ((data.map (maskWith (sample.map (·.protein_id)))).map
      (·.protein_id)).Nodup := by
    rw [map_protein_id_map_maskWith]; exact hnd
  have hmem := List.mem_map_of_mem (maskWith (sample.map (·.protein_id))) hpr
  have h := extractInitialLabels_apply_of_mem hnd' hmem
  rw [maskWith_protein_id] at h
  rw [h, maskWith_of_not_mem hs]

/-! ## `evaluate_propagation_quality` -/

/-- `[p for p in proteins_data if p["labels"]]`. -/
def initiallyAnnotated (data : List ProteinData) : List ProteinData :=
  data.filter (fun p => decide (p.labels ≠ []))

/-- The dictionary returned by `evaluate_propagation_quality`. -/
structure EvalResult where
  holdout_size : ℕ
  accuracy : ℚ
  coverage : ℚ
  correct_predictions : ℕ
  total_predictions : ℕ
deriving DecidableEq

/-- The `final_labels` of the evaluation run: propagation over the masked
snapshot, hard-coded at 100 iterations and threshold 0.01. -/
def evalFinalLabels (data sample : List ProteinData) : Labels :=
  (labelPropagation (proteinIds (maskAll data sample))
    (buildGraph (maskAll data sample))
    (extractInitialLabels (maskAll data sample)) 100 (1/100)).1

/-- `total_predictions`: held-out proteins whose final label set is
non-empty. -/
def evalPredictions (data sample : List ProteinData) : ℕ :=
  (sample.filter
      (fun pr => decide (evalFinalLabels data sample pr.protein_id).Nonempty)).length

/-- `correct_predictions`: held-out proteins with a non-empty final label set
intersecting their original labels. -/
def evalCorrect (data sample : List ProteinData) : ℕ :=
  (sample.filter
      (fun pr => decide ((evalFinalLabels data sample pr.protein_id).Nonempty ∧
        pr.labels.toFinset ∩ evalFinalLabels data sample pr.protein_id ≠ ∅))).length

/-- `evaluate_propagation_quality`, with the random holdout draw passed in as
`sample` (the call `random.sample(initially_annotated, holdout_size)` is the
only external input; its guarantees become hypotheses of the theorems). -/
def evaluatePropagationQuality (data sample : List ProteinData) :
    Except String EvalResult :=
  if initiallyAnnotated data = [] then
    Except.error "No initially annotated proteins found for evaluation"
  else
    Except.ok
      { holdout_size := sample.length
        accuracy := accuracyOf (evalCorrect data sample) (evalPredictions data sample)
        coverage := (evalPredictions data sample : ℚ) / (sample.length : ℚ)
        correct_predictions := evalCorrect data sample
        total_predictions := evalPredictions data sample }

/-- **C7.** With at least one seed-labelled protein and a holdout sample of
exactly `max(1, n // 5)` seed-labelled proteins drawn without replacement,
the evaluation masks exactly the held-out proteins' labels (preserving the
originals and everything else: ids and adjacency are unchanged), runs the
propagation routine at the hard-coded 100 iterations and 0.01 threshold, and
reports `coverage = predictions_made / holdout_size` and
`accuracy = correct / predictions_made` (0 when no predictions), where a
held-out protein counts as a prediction iff its final label set is non-empty
and as correct iff that set intersects its original labels. -/
theorem c7_holdout_evaluation (data sample : List ProteinData)
    (hnd : (data.map (·.protein_id)).Nodup)
    (hsub : ∀ pr ∈ sample, pr ∈ initiallyAnnotated data)
    (_hnodup : sample.Nodup)
    (hlen : sample.length = holdoutSize (initiallyAnnotated data).length)
    (hone : initiallyAnnotated data ≠ []) :
    evalFinalLabels data sample =
      (labelPropagation (proteinIds data) (buildGraph data)
        (extractInitialLabels (maskAll data sample)) 100 (1/100)).1 ∧
    (∀ pr ∈ sample, extractInitialLabels (maskAll data sample) pr.protein_id = []) ∧
    (∀ pr ∈ data, pr.protein_id ∉ sample.map (·.protein_id) →
      extractInitialLabels (maskAll data sample) pr.protein_id = pr.labels) ∧
    evaluatePropagationQuality data sample =
      Except.ok
        { holdout_size := holdoutSize (initiallyAnnotated data).length
          accuracy := accuracyOf (evalCorrect data sample) (evalPredictions data sample)
          coverage := (evalPredictions data sample : ℚ) /
            (holdoutSize (initiallyAnnotated data).length : ℚ)
          correct_predictions := evalCorrect data sample
          total_predictions := evalPredictions data sample } ∧
    evalPredictions data sample =
      (sample.filter (fun pr =>
        decide (evalFinalLabels data sample pr.protein_id).Nonempty)).length ∧
    evalCorrect data sample =
      (sample.filter (fun pr =>
        decide ((evalFinalLabels data sample pr.protein_id).Nonempty ∧
          pr.labels.toFinset ∩ evalFinalLabels data sample pr.protein_id ≠ ∅))).length ∧
    (evalPredictions data sample = 0 →
      accuracyOf (evalCorrect data sample) (evalPredictions data sample) = 0) ∧
    (0 < evalPredictions data sample →
      accuracyOf (evalCorrect data sample) (evalPredictions data sample) =
        (evalCorrect data sample : ℚ) / (evalPredictions data sample : ℚ)) := by
  refine ⟨?_, ?_, ?_, ?_, rfl, rfl, ?_, ?_⟩
  · unfold evalFinalLabels
    rw [proteinIds_maskAll data sample hnd, buildGraph_maskAll data sample hnd]
  · intro pr hpr
    have hin : pr ∈ data := by
      have := hsub pr hpr
      unfold initiallyAnnotated at this
      exact (List.mem_filter.mp this).1
    exact extract_maskAll_of_mem_sample data sample hnd pr hin
      (List.mem_map_of_mem (·.protein_id) hpr)
  · intro pr hpr hnot
    exact extract_maskAll_of_not_mem_sample data sample hnd pr hpr hnot
  · unfold evaluatePropagationQuality
    rw [if_neg hone, hlen]
  · intro h0
    rw [h0]
    simp [accuracyOf]
  · intro hpos
    unfold accuracyOf
    rw [if_pos hpos]

/-- Concrete snapshot for the C7 witness: `A` seeded with `{"x"}`, `B`
unlabelled, edge `A — B`. -/
def c7Data : List ProteinData :=
  [⟨"A", ["x"], ["B"]⟩, ⟨"B", [], ["A"]⟩]

/-- Concrete holdout sample for the C7 witness: the single seeded protein. -/
def c7Sample : List ProteinData := [⟨"A", ["x"], ["B"]⟩]

/-- Witness for C7 on `c7Data`/`c7Sample` (holdout size `max(1, 1 // 5) = 1`). -/
theorem c7_holdout_evaluation_witness :
    ((c7Data.map (·.protein_id)).Nodup ∧
     (∀ pr ∈ c7Sample, pr ∈ initiallyAnnotated c7Data) ∧
     c7Sample.Nodup ∧
     c7Sample.length = holdoutSize (initiallyAnnotated c7Data).length ∧
     initiallyAnnotated c7Data ≠ []) ∧
    (evalFinalLabels c7Data c7Sample =
      (labelPropagation (proteinIds c7Data) (buildGraph c7Data)
        (extractInitialLabels (maskAll c7Data c7Sample)) 100 (1/100)).1 ∧
    (∀ pr ∈ c7Sample,
      extractInitialLabels (maskAll c7Data c7Sample) pr.protein_id = []) ∧
    (∀ pr ∈ c7Data, pr.protein_id ∉ c7Sample.map (·.protein_id) →
      extractInitialLabels (maskAll c7Data c7Sample) pr.protein_id = pr.labels) ∧
    evaluatePropagationQuality c7Data c7Sample =
      Except.ok
        { holdout_size := holdoutSize (initiallyAnnotated c7Data).length
          accuracy := accuracyOf (evalCorrect c7Data c7Sample)
            (evalPredictions c7Data c7Sample)
          coverage := (evalPredictions c7Data c7Sample : ℚ) /
            (holdoutSize (initiallyAnnotated c7Data).length : ℚ)
          correct_predictions := evalCorrect c7Data c7Sample
          total_predictions := evalPredictions c7Data c7Sample } ∧
    evalPredictions c7Data c7Sample =
      (c7Sample.filter (fun pr =>
        decide (evalFinalLabels c7Data c7Sample pr.protein_id).Nonempty)).length ∧
    evalCorrect c7Data c7Sample =
      (c7Sample.filter (fun pr =>
        decide ((evalFinalLabels c7Data c7Sample pr.protein_id).Nonempty ∧
          pr.labels.toFinset ∩ evalFinalLabels c7Data c7Sample pr.protein_id ≠ ∅))).length ∧
    (evalPredictions c7Data c7Sample = 0 →
      accuracyOf (evalCorrect c7Data c7Sample) (evalPredictions c7Data c7Sample) = 0) ∧
    (0 < evalPredictions c7Data c7Sample →
      accuracyOf (evalCorrect c7Data c7Sample) (evalPredictions c7Data c7Sample) =
        (evalCorrect c7Data c7Sample : ℚ) / (evalPredictions c7Data c7Sample : ℚ))) :=
  ⟨⟨by decide, by decide, by decide, by decide, by decide⟩,
    c7_holdout_evaluation c7Data c7Sample (by decide) (by decide) (by decide)
      (by decide) (by decide)⟩

/-! ## Insertion-ordered dicts with in-place update

`defaultdict`-style accumulation: update the first entry with the given key,
or append a fresh entry initialised from the default. -/

/-- `d[k0] = upd(d[k0])` when `k0` is present, else `d[k0] = ini`
(the default value already updated once). -/
def updateAssoc {κ ν : Type} [DecidableEq κ] (k0 : κ) (upd : ν → ν) (ini : ν) :
    List (κ × ν) → List (κ × ν)
  | [] => [(k0, ini)]
  | e :: rest =>
      if e.1 = k0 then (e.1, upd e.2) :: rest
      else e :: updateAssoc k0 upd ini rest

/-- Dict lookup. -/
def lookupAssoc {κ ν : Type} [DecidableEq κ] (l : List (κ × ν)) (k : κ) :
    Option ν :=
  match l.find? (fun e => decide (e.1 = k)) with
  | some e => some e.2
  | none => none

theorem lookupAssoc_nil {κ ν : Type} [DecidableEq κ] (k : κ) :
    lookupAssoc ([] : List (κ × ν)) k = none := rfl

theorem lookupAssoc_cons {κ ν : Type} [DecidableEq κ] (e : κ × ν)
    (rest : List (κ × ν)) (k : κ) :
    lookupAssoc (e :: rest) k = if e.1 = k then some e.2 else lookupAssoc rest k := by
  by_cases h : e.1 = k
  · rw [if_pos h]
    unfold lookupAssoc
    rw [List.find?_cons_of_pos _ (by simpa using h)]
  · rw [if_neg h]
    unfold lookupAssoc
    rw [List.find?_cons_of_neg _ (by simpa using h)]

theorem lookupAssoc_updateAssoc {κ ν : Type} [DecidableEq κ]
    (k0 : κ) (upd : ν → ν) (ini : ν) :
    ∀ (l : List (κ × ν)) (k : κ),
      lookupAssoc (updateAssoc k0 upd ini l) k =
        if k = k0 then
          some (match lookupAssoc l k0 with
                | none => ini
                | some v => upd v)
        else lookupAssoc l k := by
  intro l
  induction l with
  | nil =>
      intro k
      unfold updateAssoc
      simp only [lookupAssoc_cons, lookupAssoc_nil]
      by_cases h : k = k0
      · simp [h]
      · have h' : ¬ k0 = k := fun hc => h hc.symm
        simp [h, h']
  | cons e rest ih =>
      intro k
      unfold updateAssoc
      by_cases he : e.1 = k0
      · rw [if_pos he]
        simp only [lookupAssoc_cons]
        by_cases hk : k = k0
        · have h1 : e.1 = k := he.trans hk.symm
          simp [hk, h1, he]
        · have h1 : ¬ e.1 = k := fun hc => hk (hc.symm.trans he)
          simp [hk, h1]
      · rw [if_neg he]
        simp only [lookupAssoc_cons, ih k]
        by_cases hek : e.1 = k
        · have h1 : ¬ k = k0 := fun hc => he (hek.trans hc)
          simp [hek, h1]
        · by_cases hk : k = k0
          · simp [hek, hk, he]
          · simp [hek, hk]

theorem updateAssoc_keys {κ ν : Type} [DecidableEq κ]
    (k0 : κ) (upd : ν → ν) (ini : ν) :
    ∀ (l : List (κ × ν)),
      (updateAssoc k0 upd ini l).map (·.1) =
        if k0 ∈ l.map (·.1) then l.map (·.1) else l.map (·.1) ++ [k0] := by
  intro l
  induction l with
  | nil => simp [updateAssoc]
  | cons e rest ih =>
      by_cases he : e.1 = k0
      · unfold updateAssoc
        rw [if_pos he, List.map_cons, List.map_cons,
          if_pos (List.mem_cons.mpr (Or.inl he.symm))]
      · unfold updateAssoc
        rw [if_neg he, List.map_cons, List.map_cons, ih]
        by_cases hm : k0 ∈ rest.map (·.1)
        · rw [if_pos hm, if_pos (List.mem_cons.mpr (Or.inr hm))]
        · have hnc : k0 ∉ e.1 :: rest.map (·.1) := by
            intro hc
            rcases List.mem_cons.mp hc with hc | hc
            · exact he hc.symm
            · exact hm hc
          rw [if_neg hm, if_neg hnc, List.cons_append]

theorem mem_updateAssoc_keys {κ ν : Type} [DecidableEq κ]
    {k0 : κ} {upd : ν → ν} {ini : ν} {l : List (κ × ν)} {k : κ} :
    k ∈ (updateAssoc k0 upd ini l).map (·.1) ↔
      k ∈ l.map (·.1) ∨ k = k0 := by
  rw [updateAssoc_keys]
  by_cases hm : k0 ∈ l.map (·.1)
  · rw [if_pos hm]
    constructor
    · exact Or.inl
    · rintro (h | rfl)
      · exact h
      · exact hm
  · rw [if_neg hm, List.mem_append, List.mem_singleton]

theorem updateAssoc_keys_nodup {κ ν : Type} [DecidableEq κ]
    {k0 : κ} {upd : ν → ν} {ini : ν} {l : List (κ × ν)}
    (h : (l.map (·.1)).Nodup) :
    ((updateAssoc k0 upd ini l).map (·.1)).Nodup := by
  rw [updateAssoc_keys]
  by_cases hm : k0 ∈ l.map (·.1)
  · rw [if_pos hm]; exact h
  · rw [if_neg hm]
    exact List.nodup_append.mpr ⟨h, List.nodup_singleton k0,
      fun a ha hb => hm ((List.mem_singleton.mp hb) ▸ ha)⟩

theorem lookupAssoc_of_mem {κ ν : Type} [DecidableEq κ] :
    ∀ {l : List (κ × ν)}, (l.map (·.1)).Nodup → ∀ {e : κ × ν}, e ∈ l →
      lookupAssoc l e.1 = some e.2 := by
  intro l
  induction l with
  | nil => intro _ e he; exact absurd he (List.not_mem_nil e)
  | cons h rest ih =>
      intro hnd e he
      rw [List.map_cons, List.nodup_cons] at hnd
      rcases List.mem_cons.mp he with rfl | hm
      · rw [lookupAssoc_cons, if_pos rfl]
      · have hne : h.1 ≠ e.1 := fun hc =>
          hnd.1 (hc ▸ List.mem_map_of_mem (·.1) hm)
        rw [lookupAssoc_cons, if_neg hne]
        exact ih hnd.2 hm

theorem mem_of_lookupAssoc_eq_some {κ ν : Type} [DecidableEq κ] :
    ∀ {l : List (κ × ν)} {k : κ} {v : ν},
      lookupAssoc l k = some v → (k, v) ∈ l := by
  intro l
  induction l with
  | nil => intro k v h; exact absurd h (by rw [lookupAssoc_nil]; simp)
  | cons e rest ih =>
      intro k v h
      rw [lookupAssoc_cons] at h
      by_cases he : e.1 = k
      · rw [if_pos he] at h
        have hv : v = e.2 := by injection h with h'; exact h'.symm
        have : (k, v) = e := by
          rw [hv, ← he]
        rw [this]
        exact List.mem_cons_self e rest
      · rw [if_neg he] at h
        exact List.mem_cons_of_mem e (ih h)

theorem lookupAssoc_eq_none_iff {κ ν : Type} [DecidableEq κ] :
    ∀ {l : List (κ × ν)} {k : κ},
      lookupAssoc l k = none ↔ k ∉ l.map (·.1) := by
  intro l
  induction l with
  | nil => intro k; simp [lookupAssoc_nil]
  | cons e rest ih =>
      intro k
      rw [lookupAssoc_cons, List.map_cons]
      by_cases he : e.1 = k
      · rw [if_pos he]
        simp [he]
      · rw [if_neg he]
        rw [ih, List.mem_cons]
        constructor
        · intro h hc
          rcases hc with hc | hc
          · exact he hc.symm
          · exact h hc
        · intro h hc
          exact h (Or.inr hc)

/-! ## Similarity computation (`graph_service._compute_similarities` and the
all-pairs loop of `neo4j_service.build_protein_graph`) -/

/-- A record from `get_all_proteins_for_graph`: protein id and its domain
list. -/
structure ProteinDom where
  protein_id : String
  domains : List String
deriving DecidableEq

/-- `for i in range(n): for j in range(i+1, n)` — ordered enumeration of the
upper-triangle pairs of a list. -/
def listPairs {α : Type} : List α → List (α × α)
  | [] => []
  | x :: rest => rest.map (fun y => (x, y)) ++ listPairs rest

/-- `tuple(sorted([p1, p2]))` — the canonical pair key. -/
def sortPair (a b : String) : String × String :=
  if a ≤ b then (a, b) else (b, a)

/-- `_build_domain_index`: the inverted index `domain ↦ [protein ids]`, a
`defaultdict(list)` with append; iteration over the Python set
`set(protein["domains"])` is modelled by `dedup` (each domain of a record
once; set order is irrelevant because buckets are only queried for
membership and unordered pairs). -/
def buildDomainIndex (data : List ProteinDom) : List (String × List String) :=
  data.foldl
    (fun idx pr =>
      pr.domains.dedup.foldl
        (fun i d => updateAssoc d (fun ps => ps ++ [pr.protein_id])
          [pr.protein_id] i) idx)
    []

/-- The `protein_pairs` accumulation of `_compute_similarities`: for every
domain bucket of size ≥ 2, every unordered pair inside the bucket collects
the domain into its shared set and bumps its count. -/
def accumulatePairs (index : List (String × List String)) :
    List ((String × String) × Finset String × ℕ) :=
  index.foldl
    (fun acc entry =>
      if entry.2.length < 2 then acc
      else
        (listPairs entry.2).foldl
          (fun a pq => updateAssoc (sortPair pq.1 pq.2)
            (fun v => (insert entry.1 v.1, v.2 + 1))
            (insert entry.1 ∅, 1) a)
          acc)
    []

/-- `protein_domains`: dict `protein_id ↦ set(domains)`. -/
def proteinDomains (data : List ProteinDom) : String → Finset String :=
  assocFold (·.protein_id) (fun pr => pr.domains.toFinset) ∅ data

/-- The edge list produced by `_compute_similarities`: for every accumulated
pair, retrieve the two full domain sets, skip an empty union, compute
`jaccard = |shared| / |union|`, and keep the edge iff
`jaccard ≥ min_similarity`.  An edge is `(source, target, shared_domains,
jaccard)`, with `(source, target)` the canonical key. -/
def computeSimilarities (data : List ProteinDom) (minSim : ℚ) :
    List (String × String × Finset String × ℚ) :=
  (accumulatePairs (buildDomainIndex data)).filterMap
    (fun e =>
      if proteinDomains data e.1.1 ∪ proteinDomains data e.1.2 = ∅ then none
      else
        if minSim ≤ (e.2.1.card : ℚ) /
            (((proteinDomains data e.1.1 ∪ proteinDomains data e.1.2)).card : ℚ)
        then
          some (e.1.1, e.1.2, e.2.1,
            (e.2.1.card : ℚ) /
              ((proteinDomains data e.1.1 ∪ proteinDomains data e.1.2).card : ℚ))
        else none)

/-- The naive all-pairs edge computation of `neo4j_service.build_protein_graph`:
enumerate `i < j`, skip a pair when either domain set is empty or the
intersection is empty, keep it iff `|∩| / |∪| ≥ min_similarity`; the edge
carries the intersection as shared domains and the endpoints in input
order. -/
def naiveEdges (data : List ProteinDom) (minSim : ℚ) :
    List (String × String × Finset String × ℚ) :=
  (listPairs data).filterMap
    (fun pq =>
      if pq.1.domains.toFinset = ∅ ∨ pq.2.domains.toFinset = ∅ then none
      else
        if pq.1.domains.toFinset ∩ pq.2.domains.toFinset = ∅ then none
        else
          if minSim ≤ ((pq.1.domains.toFinset ∩ pq.2.domains.toFinset).card : ℚ) /
              ((pq.1.domains.toFinset ∪ pq.2.domains.toFinset).card : ℚ)
          then
            some (pq.1.protein_id, pq.2.protein_id,
              pq.1.domains.toFinset ∩ pq.2.domains.toFinset,
              ((pq.1.domains.toFinset ∩ pq.2.domains.toFinset).card : ℚ) /
                ((pq.1.domains.toFinset ∪ pq.2.domains.toFinset).card : ℚ))
          else none)

/-- Canonical form of an edge: endpoints ordered by the string order. -/
def canonEdge (e : String × String × Finset String × ℚ) :
    String × String × Finset String × ℚ :=
  if e.1 ≤ e.2.1 then e else (e.2.1, e.1, e.2.2)

/-- Declarative description of an edge both computations should produce:
a canonically ordered pair of distinct proteins of the input whose shared
set is their (non-empty) domain intersection, with the exact Jaccard ratio,
at or above the threshold. -/
def edgeSpec (data : List ProteinDom) (minSim : ℚ)
    (e : String × String × Finset String × ℚ) : Prop :=
  ∃ pa ∈ data, ∃ pb ∈ data,
    e.1 = pa.protein_id ∧ e.2.1 = pb.protein_id ∧
    pa.protein_id < pb.protein_id ∧
    e.2.2.1 = pa.domains.toFinset ∩ pb.domains.toFinset ∧
    e.2.2.1 ≠ ∅ ∧
    e.2.2.2 = (e.2.2.1.card : ℚ) /
      ((pa.domains.toFinset ∪ pb.domains.toFinset).card : ℚ) ∧
    minSim ≤ e.2.2.2

/-! ## Characterising the inverted index -/

/-- The bucket the index should hold for a domain: the ids of the records
containing it, in input order. -/
def bucketOf (data : List ProteinDom) (d : String) : List String :=
  (data.filter (fun pr => decide (d ∈ pr.domains))).map (·.protein_id)

theorem mem_bucketOf {data : List ProteinDom} {d x : String} :
    x ∈ bucketOf data d ↔ ∃ pr ∈ data, pr.protein_id = x ∧ d ∈ pr.domains := by
  unfold bucketOf
  simp only [List.mem_map, List.mem_filter, decide_eq_true_eq]
  constructor
  · rintro ⟨pr, ⟨hm, hd⟩, hid⟩
    exact ⟨pr, hm, hid, hd⟩
  · rintro ⟨pr, hm, hid, hd⟩
    exact ⟨pr, ⟨hm, hd⟩, hid⟩

theorem bucketOf_nodup {data : List ProteinDom}
    (hnd : (data.map (·.protein_id)).Nodup) (d : String) :
    (bucketOf data d).Nodup := by
  unfold bucketOf
  exact hnd.sublist ((List.filter_sublist data).map (·.protein_id))

theorem foldl_updateAssoc_keys {κ ν γ : Type} [DecidableEq κ]
    (kf : γ → κ) (uf : γ → ν → ν) (inif : γ → ν) :
    ∀ (C : List γ) (acc0 : List (κ × ν)) (k : κ),
      (k ∈ (C.foldl (fun acc c => updateAssoc (kf c) (uf c) (inif c) acc)
          acc0).map (·.1)) ↔
        k ∈ acc0.map (·.1) ∨ ∃ c ∈ C, kf c = k := by
  intro C
  induction C with
  | nil => intro acc0 k; simp
  | cons c rest ih =>
      intro acc0 k
      rw [List.foldl_cons, ih, mem_updateAssoc_keys]
      constructor
      · rintro ((h | h) | ⟨c', hc', hk⟩)
        · exact Or.inl h
        · exact Or.inr ⟨c, List.mem_cons_self c rest, h.symm⟩
        · exact Or.inr ⟨c', List.mem_cons_of_mem c hc', hk⟩
      · rintro (h | ⟨c', hc', hk⟩)
        · exact Or.inl (Or.inl h)
        · rcases List.mem_cons.mp hc' with rfl | hc''
          · exact Or.inl (Or.inr hk.symm)
          · exact Or.inr ⟨c', hc'', hk⟩

theorem foldl_updateAssoc_keys_nodup {κ ν γ : Type} [DecidableEq κ]
    (kf : γ → κ) (uf : γ → ν → ν) (inif : γ → ν) :
    ∀ (C : List γ) (acc0 : List (κ × ν)),
      (acc0.map (·.1)).Nodup →
      ((C.foldl (fun acc c => updateAssoc (kf c) (uf c) (inif c) acc)
          acc0).map (·.1)).Nodup := by
  intro C
  induction C with
  | nil => intro acc0 h; exact h
  | cons c rest ih =>
      intro acc0 h
      rw [List.foldl_cons]
      exact ih _ (updateAssoc_keys_nodup h)

theorem idxVal_inner (pid : String) :
    ∀ (doms : List String), doms.Nodup →
      ∀ (idx : List (String × List String)) (d : String),
      (lookupAssoc (doms.foldl
          (fun i x => updateAssoc x (fun ps => ps ++ [pid]) [pid] i) idx)
        d).getD [] =
        if d ∈ doms then (lookupAssoc idx d).getD [] ++ [pid]
        else (lookupAssoc idx d).getD [] := by
  intro doms
  induction doms with
  | nil => intro _ idx d; simp
  | cons x rest ih =>
      intro hnd idx d
      obtain ⟨hx, hnd'⟩ := List.nodup_cons.mp hnd
      rw [List.foldl_cons, ih hnd']
      by_cases hdr : d ∈ rest
      · have hdx : ¬ d = x := fun hc => hx (hc ▸ hdr)
        rw [if_pos hdr, if_pos (List.mem_cons_of_mem x hdr),
          lookupAssoc_updateAssoc, if_neg hdx]
      · by_cases hdx : d = x
        · rw [if_neg hdr, if_pos (List.mem_cons.mpr (Or.inl hdx)),
            lookupAssoc_updateAssoc, if_pos hdx, hdx]
          cases hl : lookupAssoc idx x with
          | none => simp
          | some v => simp
        · rw [if_neg hdr, if_neg (fun hc => (List.mem_cons.mp hc).elim hdx hdr),
            lookupAssoc_updateAssoc, if_neg hdx]

theorem bucket_buildDomainIndex_aux :
    ∀ (data : List ProteinDom) (idx : List (String × List String)) (d : String),
      (lookupAssoc (data.foldl
          (fun idx pr =>
            pr.domains.dedup.foldl
              (fun i x => updateAssoc x (fun ps => ps ++ [pr.protein_id])
                [pr.protein_id] i) idx)
          idx) d).getD [] =
        (lookupAssoc idx d).getD [] ++ bucketOf data d := by
  intro data
  induction data with
  | nil => intro idx d; simp [bucketOf]
  | cons pr rest ih =>
      intro idx d
      rw [List.foldl_cons, ih]
      have hinner := idxVal_inner pr.protein_id pr.domains.dedup
        (List.nodup_dedup _) idx d
      have hbucket : bucketOf (pr :: rest) d =
          if d ∈ pr.domains then pr.protein_id :: bucketOf rest d
          else bucketOf rest d := by
        unfold bucketOf
        by_cases hd : d ∈ pr.domains
        · rw [if_pos hd, List.filter_cons_of_pos (by simpa using hd),
            List.map_cons]
        · rw [if_neg hd, List.filter_cons_of_neg (by simpa using hd)]
      rw [hbucket, hinner]
      by_cases hd : d ∈ pr.domains
      · rw [if_pos ((List.mem_dedup).mpr hd), if_pos hd, List.append_assoc,
          List.singleton_append]
      · rw [if_neg (fun hc => hd ((List.mem_dedup).mp hc)), if_neg hd]

theorem bucket_buildDomainIndex (data : List ProteinDom) (d : String) :
    (lookupAssoc (buildDomainIndex data) d).getD [] = bucketOf data d := by
  unfold buildDomainIndex
  rw [bucket_buildDomainIndex_aux data [] d, lookupAssoc_nil]
  rfl

theorem keys_nodup_buildDomainIndex (data : List ProteinDom) :
    ((buildDomainIndex data).map (·.1)).Nodup := by
  unfold buildDomainIndex
  generalize hacc : ([] : List (String × List String)) = acc
  have hnd : (acc.map (·.1)).Nodup := by rw [← hacc]; exact List.nodup_nil
  clear hacc
  induction data generalizing acc with
  | nil => exact hnd
  | cons pr rest ih =>
      rw [List.foldl_cons]
      exact ih _ (foldl_updateAssoc_keys_nodup _ _ _ _ _ hnd)

theorem mem_keys_buildDomainIndex_aux :
    ∀ (data : List ProteinDom) (idx : List (String × List String)) (d : String),
      d ∈ (data.foldl
          (fun idx pr =>
            pr.domains.dedup.foldl
              (fun i x => updateAssoc x (fun ps => ps ++ [pr.protein_id])
                [pr.protein_id] i) idx)
          idx).map (·.1) ↔
        d ∈ idx.map (·.1) ∨ ∃ pr ∈ data, d ∈ pr.domains := by
  intro data
  induction data with
  | nil => intro idx d; simp
  | cons pr rest ih =>
      intro idx d
      rw [List.foldl_cons, ih,
        foldl_updateAssoc_keys (fun x => x) (fun x ps => ps ++ [pr.protein_id])
          (fun _ => [pr.protein_id]) pr.domains.dedup idx d]
      constructor
      · rintro ((h | ⟨c, hc, rfl⟩) | ⟨q, hq, hd⟩)
        · exact Or.inl h
        · exact Or.inr ⟨pr, List.mem_cons_self pr rest, List.mem_dedup.mp hc⟩
        · exact Or.inr ⟨q, List.mem_cons_of_mem pr hq, hd⟩
      · rintro (h | ⟨q, hq, hd⟩)
        · exact Or.inl (Or.inl h)
        · rcases List.mem_cons.mp hq with rfl | hq'
          · exact Or.inl (Or.inr ⟨d, List.mem_dedup.mpr hd, rfl⟩)
          · exact Or.inr ⟨q, hq', hd⟩

theorem mem_keys_buildDomainIndex {data : List ProteinDom} {d : String} :
    d ∈ (buildDomainIndex data).map (·.1) ↔ ∃ pr ∈ data, d ∈ pr.domains := by
  unfold buildDomainIndex
  rw [mem_keys_buildDomainIndex_aux data [] d]
  simp

/-- Every entry of the built index is a domain with its full bucket. -/
theorem snd_of_mem_buildDomainIndex {data : List ProteinDom}
    {e : String × List String} (he : e ∈ buildDomainIndex data) :
    e.2 = bucketOf data e.1 := by
  have h := lookupAssoc_of_mem (keys_nodup_buildDomainIndex data) he
  have hval := bucket_buildDomainIndex data e.1
  rw [h] at hval
  simpa using hval

/-- A domain shared by some record yields an index entry with its bucket. -/
theorem exists_entry_buildDomainIndex {data : List ProteinDom} {d : String}
    (h : ∃ pr ∈ data, d ∈ pr.domains) :
    (d, bucketOf data d) ∈ buildDomainIndex data := by
  obtain ⟨e, he, he1⟩ := List.mem_map.mp (mem_keys_buildDomainIndex.mpr h)
  have h2 := snd_of_mem_buildDomainIndex he
  have : e = (d, bucketOf data d) := by
    rcases e with ⟨e1, e2⟩
    simp only at he1 h2
    rw [he1] at h2 ⊢
    rw [h2]
  rw [← this]
  exact he

/-! ## Characterising the pair accumulator -/

/-- An index entry contributes its domain to a canonical pair key iff one of
the unordered pairs of its bucket has that key. -/
def touches (e : String × List String) (k : String × String) : Prop :=
  ∃ pq ∈ listPairs e.2, sortPair pq.1 pq.2 = k

instance (e : String × List String) (k : String × String) :
    Decidable (touches e k) := by
  unfold touches
  infer_instance

/-- The set of domains accumulated for a canonical pair key over the index:
the keys of the buckets (of size at least 2) that touch the pair. -/
def sharedOf (k : String × String) : List (String × List String) → Finset String
  | [] => ∅
  | e :: rest =>
      if 2 ≤ e.2.length ∧ touches e k then insert e.1 (sharedOf k rest)
      else sharedOf k rest

theorem pairVal_inner (dm : String) :
    ∀ (L : List (String × String))
      (acc : List ((String × String) × Finset String × ℕ)) (k : String × String),
      ((lookupAssoc (L.foldl
          (fun a pq => updateAssoc (sortPair pq.1 pq.2)
            (fun v => (insert dm v.1, v.2 + 1)) (insert dm ∅, 1) a) acc)
        k).map (·.1)).getD ∅ =
        if ∃ pq ∈ L, sortPair pq.1 pq.2 = k
        then insert dm (((lookupAssoc acc k).map (·.1)).getD ∅)
        else ((lookupAssoc acc k).map (·.1)).getD ∅ := by
  intro L
  induction L with
  | nil => intro acc k; simp
  | cons pq rest ih =>
      intro acc k
      rw [List.foldl_cons, ih]
      have hkey := lookupAssoc_updateAssoc (sortPair pq.1 pq.2)
        (fun v : Finset String × ℕ => (insert dm v.1, v.2 + 1))
        (insert dm ∅, 1) acc k
      by_cases hk : k = sortPair pq.1 pq.2
      · have hnew : ((lookupAssoc (updateAssoc (sortPair pq.1 pq.2)
            (fun v => (insert dm v.1, v.2 + 1)) (insert dm ∅, 1) acc)
            k).map (·.1)).getD ∅ =
            insert dm (((lookupAssoc acc k).map (·.1)).getD ∅) := by
          rw [hkey, if_pos hk, hk]
          cases hl : lookupAssoc acc (sortPair pq.1 pq.2) with
          | none => simp
          | some v => simp
        have hex : ∃ pq' ∈ pq :: rest, sortPair pq'.1 pq'.2 = k :=
          ⟨pq, List.mem_cons_self pq rest, hk.symm⟩
        rw [if_pos hex, hnew]
        by_cases hrest : ∃ pq' ∈ rest, sortPair pq'.1 pq'.2 = k
        · rw [if_pos hrest, Finset.insert_idem]
        · rw [if_neg hrest]
      · have hold : lookupAssoc (updateAssoc (sortPair pq.1 pq.2)
            (fun v : Finset String × ℕ => (insert dm v.1, v.2 + 1))
            (insert dm ∅, 1) acc) k = lookupAssoc acc k := by
          rw [hkey, if_neg hk]
        rw [hold]
        by_cases hrest : ∃ pq' ∈ rest, sortPair pq'.1 pq'.2 = k
        · have hex : ∃ pq' ∈ pq :: rest, sortPair pq'.1 pq'.2 = k := by
            obtain ⟨pq', hm, he⟩ := hrest
            exact ⟨pq', List.mem_cons_of_mem pq hm, he⟩
          rw [if_pos hrest, if_pos hex]
        · have hex : ¬ ∃ pq' ∈ pq :: rest, sortPair pq'.1 pq'.2 = k := by
            rintro ⟨pq', hm, he⟩
            rcases List.mem_cons.mp hm with rfl | hm'
            · exact hk he.symm
            · exact hrest ⟨pq', hm', he⟩
          rw [if_neg hrest, if_neg hex]

theorem sharedOf_cons (k : String × String) (e : String × List String)
    (rest : List (String × List String)) :
    sharedOf k (e :: rest) =
      if 2 ≤ e.2.length ∧ touches e k then insert e.1 (sharedOf k rest)
      else sharedOf k rest := rfl

theorem pairVal_accumulate_aux :
    ∀ (index : List (String × List String))
      (acc : List ((String × String) × Finset String × ℕ)) (k : String × String),
      ((lookupAssoc (index.foldl
          (fun acc entry =>
            if entry.2.length < 2 then acc
            else
              (listPairs entry.2).foldl
                (fun a pq => updateAssoc (sortPair pq.1 pq.2)
                  (fun v => (insert entry.1 v.1, v.2 + 1))
                  (insert entry.1 ∅, 1) a)
                acc)
          acc) k).map (·.1)).getD ∅ =
        sharedOf k index ∪ ((lookupAssoc acc k).map (·.1)).getD ∅ := by
  intro index
  induction index with
  | nil => intro acc k; exact (Finset.empty_union _).symm
  | cons e rest ih =>
      intro acc k
      rw [List.foldl_cons, sharedOf_cons]
      by_cases hlen : e.2.length < 2
      · have hguard : ¬ (2 ≤ e.2.length ∧ touches e k) := fun hc => by omega
        rw [if_pos hlen, ih, if_neg hguard]
      · have hlen2 : 2 ≤ e.2.length := by omega
        rw [if_neg hlen, ih, pairVal_inner]
        by_cases ht : touches e k
        · rw [if_pos (show ∃ pq ∈ listPairs e.2, sortPair pq.1 pq.2 = k from ht),
            if_pos (And.intro hlen2 ht), Finset.union_insert, Finset.insert_union]
        · rw [if_neg (show ¬ ∃ pq ∈ listPairs e.2, sortPair pq.1 pq.2 = k from ht),
            if_neg (fun hc => ht hc.2)]

theorem pairVal_accumulatePairs (index : List (String × List String))
    (k : String × String) :
    ((lookupAssoc (accumulatePairs index) k).map (·.1)).getD ∅ =
      sharedOf k index := by
  unfold accumulatePairs
  rw [pairVal_accumulate_aux index [] k, lookupAssoc_nil]
  simp

theorem mem_keys_accumulate_aux :
    ∀ (index : List (String × List String))
      (acc : List ((String × String) × Finset String × ℕ)) (k : String × String),
      k ∈ (index.foldl
          (fun acc entry =>
            if entry.2.length < 2 then acc
            else
              (listPairs entry.2).foldl
                (fun a pq => updateAssoc (sortPair pq.1 pq.2)
                  (fun v => (insert entry.1 v.1, v.2 + 1))
                  (insert entry.1 ∅, 1) a)
                acc)
          acc).map (·.1) ↔
        k ∈ acc.map (·.1) ∨ ∃ e ∈ index, 2 ≤ e.2.length ∧ touches e k := by
  intro index
  induction index with
  | nil => intro acc k; simp
  | cons e rest ih =>
      intro acc k
      rw [List.foldl_cons]
      by_cases hlen : e.2.length < 2
      · rw [if_pos hlen, ih]
        constructor
        · rintro (h | ⟨e', he', hg⟩)
          · exact Or.inl h
          · exact Or.inr ⟨e', List.mem_cons_of_mem e he', hg⟩
        · rintro (h | ⟨e', he', hg⟩)
          · exact Or.inl h
          · rcases List.mem_cons.mp he' with rfl | hm
            · omega
            · exact Or.inr ⟨e', hm, hg⟩
      · rw [if_neg hlen, ih, foldl_updateAssoc_keys
          (fun pq => sortPair pq.1 pq.2)
          (fun pq v => (insert e.1 v.1, v.2 + 1))
          (fun pq => (insert e.1 ∅, 1)) (listPairs e.2) acc k]
        have hlen2 : 2 ≤ e.2.length := by omega
        constructor
        · rintro ((h | ht) | ⟨e', he', hg⟩)
          · exact Or.inl h
          · exact Or.inr ⟨e, List.mem_cons_self e rest, hlen2, ht⟩
          · exact Or.inr ⟨e', List.mem_cons_of_mem e he', hg⟩
        · rintro (h | ⟨e', he', hg⟩)
          · exact Or.inl (Or.inl h)
          · rcases List.mem_cons.mp he' with rfl | hm
            · exact Or.inl (Or.inr hg.2)
            · exact Or.inr ⟨e', hm, hg⟩

theorem sharedOf_ne_empty_iff (k : String × String) :
    ∀ (index : List (String × List String)),
      sharedOf k index ≠ ∅ ↔ ∃ e ∈ index, 2 ≤ e.2.length ∧ touches e k := by
  intro index
  induction index with
  | nil => simp [sharedOf]
  | cons e rest ih =>
      unfold sharedOf
      by_cases hg : 2 ≤ e.2.length ∧ touches e k
      · rw [if_pos hg]
        constructor
        · intro _
          exact ⟨e, List.mem_cons_self e rest, hg⟩
        · intro _
          exact Finset.insert_ne_empty _ _
      · rw [if_neg hg, ih]
        constructor
        · rintro ⟨e', he', hg'⟩
          exact ⟨e', List.mem_cons_of_mem e he', hg'⟩
        · rintro ⟨e', he', hg'⟩
          rcases List.mem_cons.mp he' with rfl | hm
          · exact absurd hg' hg
          · exact ⟨e', hm, hg'⟩

theorem mem_keys_accumulatePairs {index : List (String × List String)}
    {k : String × String} :
    k ∈ (accumulatePairs index).map (·.1) ↔ sharedOf k index ≠ ∅ := by
  unfold accumulatePairs
  rw [mem_keys_accumulate_aux index [] k, sharedOf_ne_empty_iff]
  simp

theorem keys_nodup_accumulatePairs (index : List (String × List String)) :
    ((accumulatePairs index).map (·.1)).Nodup := by
  unfold accumulatePairs
  generalize hacc : ([] : List ((String × String) × Finset String × ℕ)) = acc
  have hnd : (acc.map (·.1)).Nodup := by rw [← hacc]; exact List.nodup_nil
  clear hacc
  induction index generalizing acc with
  | nil => exact hnd
  | cons e rest ih =>
      rw [List.foldl_cons]
      by_cases hlen : e.2.length < 2
      · rw [if_pos hlen]; exact ih _ hnd
      · rw [if_neg hlen]
        exact ih _ (foldl_updateAssoc_keys_nodup _ _ _ _ _ hnd)

theorem shared_of_mem_accumulatePairs {index : List (String × List String)}
    {e : (String × String) × Finset String × ℕ}
    (he : e ∈ accumulatePairs index) :
    e.2.1 = sharedOf e.1 index ∧ sharedOf e.1 index ≠ ∅ := by
  have h := lookupAssoc_of_mem (keys_nodup_accumulatePairs index) he
  have hval := pairVal_accumulatePairs index e.1
  rw [h] at hval
  refine ⟨by simpa using hval, ?_⟩
  exact mem_keys_accumulatePairs.mp (List.mem_map_of_mem (·.1) he)

theorem exists_mem_accumulatePairs_of_shared {index : List (String × List String)}
    {k : String × String} (h : sharedOf k index ≠ ∅) :
    ∃ c : ℕ, (k, (sharedOf k index, c)) ∈ accumulatePairs index := by
  obtain ⟨e, he, he1⟩ := List.mem_map.mp (mem_keys_accumulatePairs.mpr h)
  have h2 := (shared_of_mem_accumulatePairs he).1
  refine ⟨e.2.2, ?_⟩
  have : e = (k, (sharedOf k index, e.2.2)) := by
    rcases e with ⟨k', S, c⟩
    simp only at he1 h2 ⊢
    rw [he1] at h2 ⊢
    rw [h2]
  rw [← this]
  exact he

/-! ## Pairs of a list and the canonical key -/

theorem mem_of_mem_listPairs {α : Type} :
    ∀ {L : List α} {pq : α × α}, pq ∈ listPairs L → pq.1 ∈ L ∧ pq.2 ∈ L := by
  intro L
  induction L with
  | nil => intro pq h; exact absurd h (List.not_mem_nil pq)
  | cons z rest ih =>
      intro pq h
      unfold listPairs at h
      rcases List.mem_append.mp h with h | h
      · obtain ⟨y, hy, he⟩ := List.mem_map.mp h
        rw [← he]
        exact ⟨List.mem_cons_self z rest, List.mem_cons_of_mem z hy⟩
      · obtain ⟨h1, h2⟩ := ih h
        exact ⟨List.mem_cons_of_mem z h1, List.mem_cons_of_mem z h2⟩

theorem map_ne_of_mem_listPairs {α β : Type} (f : α → β) :
    ∀ {L : List α}, (L.map f).Nodup →
      ∀ {pq : α × α}, pq ∈ listPairs L → f pq.1 ≠ f pq.2 := by
  intro L
  induction L with
  | nil => intro _ pq h; exact absurd h (List.not_mem_nil pq)
  | cons z rest ih =>
      intro hnd pq h
      rw [List.map_cons, List.nodup_cons] at hnd
      unfold listPairs at h
      rcases List.mem_append.mp h with h | h
      · obtain ⟨y, hy, he⟩ := List.mem_map.mp h
        rw [← he]
        intro hc
        exact hnd.1 (hc ▸ List.mem_map_of_mem f hy)
      · exact ih hnd.2 h

theorem listPairs_mem_or {α : Type} {x y : α} (hne : x ≠ y) :
    ∀ {L : List α}, x ∈ L → y ∈ L →
      (x, y) ∈ listPairs L ∨ (y, x) ∈ listPairs L := by
  intro L
  induction L with
  | nil => intro hx _; exact absurd hx (List.not_mem_nil x)
  | cons z rest ih =>
      intro hx hy
      by_cases hxz : x = z
      · have hyr : y ∈ rest := by
          rcases List.mem_cons.mp hy with rfl | h
          · exact absurd hxz.symm (Ne.symm hne)
          · exact h
        left
        unfold listPairs
        exact List.mem_append.mpr (Or.inl (hxz ▸ List.mem_map_of_mem _ hyr))
      · by_cases hyz : y = z
        · have hxr : x ∈ rest := by
            rcases List.mem_cons.mp hx with rfl | h
            · exact absurd rfl hxz
            · exact h
          right
          unfold listPairs
          exact List.mem_append.mpr (Or.inl (hyz ▸ List.mem_map_of_mem _ hxr))
        · have hxr : x ∈ rest := (List.mem_cons.mp hx).resolve_left hxz
          have hyr : y ∈ rest := (List.mem_cons.mp hy).resolve_left hyz
          rcases ih hxr hyr with h | h
          · left
            unfold listPairs
            exact List.mem_append.mpr (Or.inr h)
          · right
            unfold listPairs
            exact List.mem_append.mpr (Or.inr h)

theorem sortPair_lt_of_ne {x y : String} (h : x ≠ y) :
    (sortPair x y).1 < (sortPair x y).2 := by
  unfold sortPair
  by_cases hxy : x ≤ y
  · rw [if_pos hxy]
    exact lt_of_le_of_ne hxy h
  · rw [if_neg hxy]
    exact lt_of_not_le hxy

theorem sortPair_eq_iff {x y a b : String} (_hne : x ≠ y) (hab : a < b) :
    sortPair x y = (a, b) ↔ (x = a ∧ y = b) ∨ (x = b ∧ y = a) := by
  unfold sortPair
  by_cases hxy : x ≤ y
  · rw [if_pos hxy, Prod.mk.injEq]
    constructor
    · exact Or.inl
    · rintro (⟨rfl, rfl⟩ | ⟨rfl, rfl⟩)
      · exact ⟨rfl, rfl⟩
      · exact absurd (lt_of_lt_of_le hab hxy) (lt_irrefl _)
  · rw [if_neg hxy, Prod.mk.injEq]
    constructor
    · rintro ⟨rfl, rfl⟩
      exact Or.inr ⟨rfl, rfl⟩
    · rintro (⟨rfl, rfl⟩ | ⟨rfl, rfl⟩)
      · exact absurd hab.le hxy
      · exact ⟨rfl, rfl⟩

theorem sortPair_eq_of_lt {a b : String} (hab : a < b) : sortPair a b = (a, b) := by
  unfold sortPair
  rw [if_pos hab.le]

theorem sortPair_eq_of_gt {a b : String} (hab : a < b) : sortPair b a = (a, b) := by
  unfold sortPair
  rw [if_neg (not_le.mpr hab)]

theorem two_le_length_of_mem_ne {α : Type} {L : List α} {a b : α}
    (ha : a ∈ L) (hb : b ∈ L) (hne : a ≠ b) : 2 ≤ L.length := by
  cases L with
  | nil => exact absurd ha (List.not_mem_nil a)
  | cons x t =>
      cases t with
      | nil =>
          have h1 : a = x := List.mem_singleton.mp ha
          have h2 : b = x := List.mem_singleton.mp hb
          exact absurd (h1.trans h2.symm) hne
      | cons y t2 => simp [List.length_cons]

/-- Generic membership in `sharedOf`. -/
theorem mem_sharedOf {k : String × String} {d : String} :
    ∀ {index : List (String × List String)},
      d ∈ sharedOf k index ↔
        ∃ e ∈ index, e.1 = d ∧ 2 ≤ e.2.length ∧ touches e k := by
  intro index
  induction index with
  | nil => simp [sharedOf]
  | cons e rest ih =>
      rw [sharedOf_cons]
      by_cases hg : 2 ≤ e.2.length ∧ touches e k
      · rw [if_pos hg, Finset.mem_insert, ih]
        constructor
        · rintro (rfl | ⟨e', he', h1, h2⟩)
          · exact ⟨e, List.mem_cons_self e rest, rfl, hg⟩
          · exact ⟨e', List.mem_cons_of_mem e he', h1, h2⟩
        · rintro ⟨e', he', h1, h2⟩
          rcases List.mem_cons.mp he' with rfl | hm
          · exact Or.inl h1.symm
          · exact Or.inr ⟨e', hm, h1, h2⟩
      · rw [if_neg hg, ih]
        constructor
        · rintro ⟨e', he', h1, h2⟩
          exact ⟨e', List.mem_cons_of_mem e he', h1, h2⟩
        · rintro ⟨e', he', h1, h2⟩
          rcases List.mem_cons.mp he' with rfl | hm
          · exact absurd h2 hg
          · exact ⟨e', hm, h1, h2⟩

theorem touches_bucket_iff {data : List ProteinDom}
    (hnd : (data.map (·.protein_id)).Nodup) {d a b : String} (hab : a < b) :
    touches (d, bucketOf data d) (a, b) ↔
      a ∈ bucketOf data d ∧ b ∈ bucketOf data d := by
  constructor
  · rintro ⟨pq, hpq, hs⟩
    have hmem := mem_of_mem_listPairs hpq
    have hne : pq.1 ≠ pq.2 := by
      have := map_ne_of_mem_listPairs (fun x => x)
        (by simpa using bucketOf_nodup hnd d) hpq
      simpa using this
    rcases (sortPair_eq_iff hne hab).mp hs with ⟨h1, h2⟩ | ⟨h1, h2⟩
    · exact ⟨h1 ▸ hmem.1, h2 ▸ hmem.2⟩
    · exact ⟨h2 ▸ hmem.2, h1 ▸ hmem.1⟩
  · rintro ⟨ha, hb⟩
    rcases listPairs_mem_or (ne_of_lt hab) ha hb with h | h
    · exact ⟨(a, b), h, sortPair_eq_of_lt hab⟩
    · exact ⟨(b, a), h, sortPair_eq_of_gt hab⟩

theorem mem_sharedOf_buildDomainIndex {data : List ProteinDom}
    (hnd : (data.map (·.protein_id)).Nodup) {a b : String} (hab : a < b)
    (d : String) :
    d ∈ sharedOf (a, b) (buildDomainIndex data) ↔
      a ∈ bucketOf data d ∧ b ∈ bucketOf data d := by
  rw [mem_sharedOf]
  constructor
  · rintro ⟨e, he, rfl, _hlen, ht⟩
    have hb2 := snd_of_mem_buildDomainIndex he
    have : e = (e.1, bucketOf data e.1) := by
      rcases e with ⟨e1, e2⟩
      simp only at hb2 ⊢
      rw [hb2]
    rw [this] at ht
    exact (touches_bucket_iff hnd hab).mp ht
  · rintro ⟨ha, hb⟩
    obtain ⟨pa, hpa, _, hda⟩ := mem_bucketOf.mp ha
    refine ⟨(d, bucketOf data d),
      exists_entry_buildDomainIndex ⟨pa, hpa, hda⟩, rfl, ?_, ?_⟩
    · exact two_le_length_of_mem_ne ha hb (ne_of_lt hab)
    · exact (touches_bucket_iff hnd hab).mpr ⟨ha, hb⟩

theorem proteinDomains_apply_of_mem {data : List ProteinDom} {pr : ProteinDom}
    (hnd : (data.map (·.protein_id)).Nodup) (hm : pr ∈ data) :
    proteinDomains data pr.protein_id = pr.domains.toFinset := by
  unfold proteinDomains assocFold
  exact foldl_update_apply_of_mem (·.protein_id) (fun pr => pr.domains.toFinset)
    data _ pr _ hnd hm rfl

/-- Over the built index, the domains accumulated for a canonical pair are
exactly the intersection of the two records' domain sets. -/
theorem sharedOf_eq_inter {data : List ProteinDom}
    (hnd : (data.map (·.protein_id)).Nodup) {pa pb : ProteinDom}
    (hpa : pa ∈ data) (hpb : pb ∈ data)
    (hab : pa.protein_id < pb.protein_id) :
    sharedOf (pa.protein_id, pb.protein_id) (buildDomainIndex data) =
      pa.domains.toFinset ∩ pb.domains.toFinset := by
  ext d
  rw [mem_sharedOf_buildDomainIndex hnd hab, Finset.mem_inter,
    List.mem_toFinset, List.mem_toFinset]
  constructor
  · rintro ⟨ha, hb⟩
    obtain ⟨pra, hpra, hida, hda⟩ := mem_bucketOf.mp ha
    obtain ⟨prb, hprb, hidb, hdb⟩ := mem_bucketOf.mp hb
    have hea : pra = pa := List.inj_on_of_nodup_map hnd hpra hpa hida
    have heb : prb = pb := List.inj_on_of_nodup_map hnd hprb hpb hidb
    exact ⟨hea ▸ hda, heb ▸ hdb⟩
  · rintro ⟨hda, hdb⟩
    exact ⟨mem_bucketOf.mpr ⟨pa, hpa, rfl, hda⟩,
      mem_bucketOf.mpr ⟨pb, hpb, rfl, hdb⟩⟩

/-- Characterisation of the inverted-index computation: its edges are
exactly the edges of `edgeSpec`. -/
theorem mem_computeSimilarities_iff {data : List ProteinDom} {minSim : ℚ}
    (hnd : (data.map (·.protein_id)).Nodup)
    {e : String × String × Finset String × ℚ} :
    e ∈ computeSimilarities data minSim ↔ edgeSpec data minSim e := by
  unfold computeSimilarities
  rw [List.mem_filterMap]
  constructor
  · rintro ⟨entry, hmem, hf⟩
    obtain ⟨hS, hSne⟩ := shared_of_mem_accumulatePairs hmem
    obtain ⟨e', he', hlen, ht⟩ := (sharedOf_ne_empty_iff entry.1 _).mp hSne
    obtain ⟨pq, hpq, hsp⟩ := ht
    have hbuck := snd_of_mem_buildDomainIndex he'
    have hqne : pq.1 ≠ pq.2 := by
      have hbnd : e'.2.Nodup := by rw [hbuck]; exact bucketOf_nodup hnd e'.1
      have := map_ne_of_mem_listPairs (fun x => x) (by simpa using hbnd) hpq
      simpa using this
    have hlt : entry.1.1 < entry.1.2 := by
      have h := sortPair_lt_of_ne hqne
      rw [hsp] at h
      exact h
    obtain ⟨d0, hd0⟩ := Finset.nonempty_iff_ne_empty.mpr hSne
    have hd0' := (mem_sharedOf_buildDomainIndex hnd hlt d0).mp hd0
    obtain ⟨ha, hb⟩ := hd0'
    obtain ⟨pa, hpa, hida, _⟩ := mem_bucketOf.mp ha
    obtain ⟨pb, hpb, hidb, _⟩ := mem_bucketOf.mp hb
    have hSint : sharedOf (entry.1.1, entry.1.2) (buildDomainIndex data) =
        pa.domains.toFinset ∩ pb.domains.toFinset := by
      have h := sharedOf_eq_inter hnd hpa hpb (by rw [hida, hidb]; exact hlt)
      rw [hida, hidb] at h
      exact h
    have hpda : proteinDomains data entry.1.1 = pa.domains.toFinset := by
      rw [← hida]; exact proteinDomains_apply_of_mem hnd hpa
    have hpdb : proteinDomains data entry.1.2 = pb.domains.toFinset := by
      rw [← hidb]; exact proteinDomains_apply_of_mem hnd hpb
    by_cases h1 : proteinDomains data entry.1.1 ∪ proteinDomains data entry.1.2 = ∅
    · rw [if_pos h1] at hf
      exact absurd hf (by simp)
    · rw [if_neg h1] at hf
      by_cases h2 : minSim ≤ (entry.2.1.card : ℚ) /
          ((proteinDomains data entry.1.1 ∪ proteinDomains data entry.1.2).card : ℚ)
      · rw [if_pos h2] at hf
        have he : (entry.1.1, entry.1.2, entry.2.1,
            (entry.2.1.card : ℚ) /
              ((proteinDomains data entry.1.1 ∪
                proteinDomains data entry.1.2).card : ℚ)) = e := by
          injection hf
        refine ⟨pa, hpa, pb, hpb, ?_, ?_, ?_, ?_, ?_, ?_, ?_⟩
        · rw [← he, ← hida]
        · rw [← he, ← hidb]
        · rw [hida, hidb]; exact hlt
        · rw [← he]
          show entry.2.1 = _
          rw [hS, ← hSint]
        · rw [← he]
          show entry.2.1 ≠ ∅
          rw [hS]; exact hSne
        · rw [← he]
          show (entry.2.1.card : ℚ) / _ = ((entry.2.1.card : ℚ)) / _
          rw [hpda, hpdb]
        · rw [← he]
          show minSim ≤ (entry.2.1.card : ℚ) / _
          exact h2
      · rw [if_neg h2] at hf
        exact absurd hf (by simp)
  · rintro ⟨pa, hpa, pb, hpb, he1, he2, hlt, hS, hSne, hj, hmin⟩
    have hkey : sharedOf (e.1, e.2.1) (buildDomainIndex data) =
        pa.domains.toFinset ∩ pb.domains.toFinset := by
      rw [he1, he2]
      exact sharedOf_eq_inter hnd hpa hpb hlt
    have hne2 : sharedOf (e.1, e.2.1) (buildDomainIndex data) ≠ ∅ := by
      rw [hkey, ← hS]; exact hSne
    obtain ⟨c, hmem⟩ := exists_mem_accumulatePairs_of_shared hne2
    refine ⟨((e.1, e.2.1), (sharedOf (e.1, e.2.1) (buildDomainIndex data), c)),
      hmem, ?_⟩
    have hpda : proteinDomains data e.1 = pa.domains.toFinset := by
      rw [he1]; exact proteinDomains_apply_of_mem hnd hpa
    have hpdb : proteinDomains data e.2.1 = pb.domains.toFinset := by
      rw [he2]; exact proteinDomains_apply_of_mem hnd hpb
    have hunion : proteinDomains data e.1 ∪ proteinDomains data e.2.1 ≠ ∅ := by
      rw [hpda, hpdb]
      intro hc
      apply hSne
      rw [hS]
      exact Finset.subset_empty.mp (hc ▸ Finset.inter_subset_union)
    have h3 : sharedOf (e.1, e.2.1) (buildDomainIndex data) = e.2.2.1 :=
      hkey.trans hS.symm
    show (if proteinDomains data e.1 ∪ proteinDomains data e.2.1 = ∅ then none
          else if minSim ≤
              ((sharedOf (e.1, e.2.1) (buildDomainIndex data)).card : ℚ) /
              ((proteinDomains data e.1 ∪ proteinDomains data e.2.1).card : ℚ)
          then some (e.1, e.2.1, sharedOf (e.1, e.2.1) (buildDomainIndex data),
            ((sharedOf (e.1, e.2.1) (buildDomainIndex data)).card : ℚ) /
              ((proteinDomains data e.1 ∪ proteinDomains data e.2.1).card : ℚ))
          else none) = some e
    rw [if_neg hunion, h3]
    have h4 : ((e.2.2.1.card : ℚ)) /
        ((proteinDomains data e.1 ∪ proteinDomains data e.2.1).card : ℚ) =
        e.2.2.2 := by
      rw [hpda, hpdb]
      exact hj.symm
    rw [h4, if_pos hmin]

/-- Characterisation of the naive all-pairs computation (after canonical
reordering of each edge): its edges are exactly the edges of `edgeSpec`. -/
theorem mem_naiveEdges_canon_iff {data : List ProteinDom} {minSim : ℚ}
    (hnd : (data.map (·.protein_id)).Nodup)
    {e : String × String × Finset String × ℚ} :
    e ∈ (naiveEdges data minSim).map canonEdge ↔ edgeSpec data minSim e := by
  rcases e with ⟨x1, x2, x3, x4⟩
  rw [List.mem_map]
  constructor
  · rintro ⟨e0, he0, hc⟩
    unfold naiveEdges at he0
    rw [List.mem_filterMap] at he0
    obtain ⟨pq, hpq, hf⟩ := he0
    obtain ⟨hm1, hm2⟩ := mem_of_mem_listPairs hpq
    have hidne : pq.1.protein_id ≠ pq.2.protein_id :=
      map_ne_of_mem_listPairs (·.protein_id) hnd hpq
    by_cases h1 : pq.1.domains.toFinset = ∅ ∨ pq.2.domains.toFinset = ∅
    · rw [if_pos h1] at hf; exact absurd hf (by simp)
    rw [if_neg h1] at hf
    by_cases h2 : pq.1.domains.toFinset ∩ pq.2.domains.toFinset = ∅
    · rw [if_pos h2] at hf; exact absurd hf (by simp)
    rw [if_neg h2] at hf
    by_cases h3 : minSim ≤
        ((pq.1.domains.toFinset ∩ pq.2.domains.toFinset).card : ℚ) /
        ((pq.1.domains.toFinset ∪ pq.2.domains.toFinset).card : ℚ)
    · rw [if_pos h3] at hf
      have he0 : e0 = (pq.1.protein_id, pq.2.protein_id,
          pq.1.domains.toFinset ∩ pq.2.domains.toFinset,
          ((pq.1.domains.toFinset ∩ pq.2.domains.toFinset).card : ℚ) /
            ((pq.1.domains.toFinset ∪ pq.2.domains.toFinset).card : ℚ)) := by
        have := hf.symm
        injection this
      rw [he0] at hc
      rcases lt_or_gt_of_ne hidne with hltid | hgtid
      · have hcanon : canonEdge (pq.1.protein_id, pq.2.protein_id,
            pq.1.domains.toFinset ∩ pq.2.domains.toFinset,
            ((pq.1.domains.toFinset ∩ pq.2.domains.toFinset).card : ℚ) /
              ((pq.1.domains.toFinset ∪ pq.2.domains.toFinset).card : ℚ)) =
            (pq.1.protein_id, pq.2.protein_id,
              pq.1.domains.toFinset ∩ pq.2.domains.toFinset,
              ((pq.1.domains.toFinset ∩ pq.2.domains.toFinset).card : ℚ) /
                ((pq.1.domains.toFinset ∪ pq.2.domains.toFinset).card : ℚ)) := by
          unfold canonEdge
          rw [if_pos (show pq.1.protein_id ≤ pq.2.protein_id from hltid.le)]
        rw [hcanon] at hc
        obtain ⟨hx1, hx2, hx3, hx4⟩ : pq.1.protein_id = x1 ∧
            pq.2.protein_id = x2 ∧
            pq.1.domains.toFinset ∩ pq.2.domains.toFinset = x3 ∧
            ((pq.1.domains.toFinset ∩ pq.2.domains.toFinset).card : ℚ) /
              ((pq.1.domains.toFinset ∪ pq.2.domains.toFinset).card : ℚ) = x4 := by
          simpa [Prod.ext_iff] using hc
        refine ⟨pq.1, hm1, pq.2, hm2, hx1.symm, hx2.symm, hltid, hx3.symm, ?_,
          ?_, ?_⟩
        · rw [← hx3]; exact h2
        · rw [← hx4, ← hx3]
        · rw [← hx4]; exact h3
      · have hcanon : canonEdge (pq.1.protein_id, pq.2.protein_id,
            pq.1.domains.toFinset ∩ pq.2.domains.toFinset,
            ((pq.1.domains.toFinset ∩ pq.2.domains.toFinset).card : ℚ) /
              ((pq.1.domains.toFinset ∪ pq.2.domains.toFinset).card : ℚ)) =
            (pq.2.protein_id, pq.1.protein_id,
              pq.1.domains.toFinset ∩ pq.2.domains.toFinset,
              ((pq.1.domains.toFinset ∩ pq.2.domains.toFinset).card : ℚ) /
                ((pq.1.domains.toFinset ∪ pq.2.domains.toFinset).card : ℚ)) := by
          unfold canonEdge
          rw [if_neg (show ¬ pq.1.protein_id ≤ pq.2.protein_id from
            not_le.mpr hgtid)]
        rw [hcanon] at hc
        obtain ⟨hx1, hx2, hx3, hx4⟩ : pq.2.protein_id = x1 ∧
            pq.1.protein_id = x2 ∧
            pq.1.domains.toFinset ∩ pq.2.domains.toFinset = x3 ∧
            ((pq.1.domains.toFinset ∩ pq.2.domains.toFinset).card : ℚ) /
              ((pq.1.domains.toFinset ∪ pq.2.domains.toFinset).card : ℚ) = x4 := by
          simpa [Prod.ext_iff] using hc
        refine ⟨pq.2, hm2, pq.1, hm1, hx1.symm, hx2.symm, hgtid, ?_, ?_, ?_, ?_⟩
        · rw [← hx3, Finset.inter_comm]
        · show x3 ≠ ∅
          rw [← hx3]; exact h2
        · show x4 = (x3.card : ℚ) / _
          rw [← hx4, ← hx3, Finset.union_comm]
        · show minSim ≤ x4
          rw [← hx4]; exact h3
    · rw [if_neg h3] at hf; exact absurd hf (by simp)
  · rintro ⟨pa, hpa, pb, hpb, he1, he2, hlt, hS, hSne, hj, hmin⟩
    simp only at he1 he2 hS hSne hj hmin
    have hint : pa.domains.toFinset ∩ pb.domains.toFinset ≠ ∅ := by
      rw [← hS]; exact hSne
    have hne : pa ≠ pb := fun hc => absurd (hc ▸ hlt) (lt_irrefl _)
    have hnem : ¬ (pa.domains.toFinset = ∅ ∨ pb.domains.toFinset = ∅) := by
      rintro (hc | hc)
      · exact hint (Finset.subset_empty.mp (hc ▸ Finset.inter_subset_left))
      · exact hint (Finset.subset_empty.mp (hc ▸ Finset.inter_subset_right))
    rcases listPairs_mem_or hne hpa hpb with h | h
    · refine ⟨(pa.protein_id, pb.protein_id,
        pa.domains.toFinset ∩ pb.domains.toFinset,
        ((pa.domains.toFinset ∩ pb.domains.toFinset).card : ℚ) /
          ((pa.domains.toFinset ∪ pb.domains.toFinset).card : ℚ)), ?_, ?_⟩
      · unfold naiveEdges
        rw [List.mem_filterMap]
        refine ⟨(pa, pb), h, ?_⟩
        show (if pa.domains.toFinset = ∅ ∨ pb.domains.toFinset = ∅ then none
          else if pa.domains.toFinset ∩ pb.domains.toFinset = ∅ then none
          else if minSim ≤
              ((pa.domains.toFinset ∩ pb.domains.toFinset).card : ℚ) /
              ((pa.domains.toFinset ∪ pb.domains.toFinset).card : ℚ)
          then some (pa.protein_id, pb.protein_id,
            pa.domains.toFinset ∩ pb.domains.toFinset,
            ((pa.domains.toFinset ∩ pb.domains.toFinset).card : ℚ) /
              ((pa.domains.toFinset ∪ pb.domains.toFinset).card : ℚ))
          else none) = _
        rw [if_neg hnem, if_neg hint,
          if_pos (show minSim ≤ _ from by rw [← hS, ← hj]; exact hmin)]
      · unfold canonEdge
        rw [if_pos (show pa.protein_id ≤ pb.protein_id from hlt.le)]
        simp only [Prod.mk.injEq]
        exact ⟨he1.symm, he2.symm, hS.symm, by rw [← hS]; exact hj.symm⟩
    · refine ⟨(pb.protein_id, pa.protein_id,
        pb.domains.toFinset ∩ pa.domains.toFinset,
        ((pb.domains.toFinset ∩ pa.domains.toFinset).card : ℚ) /
          ((pb.domains.toFinset ∪ pa.domains.toFinset).card : ℚ)), ?_, ?_⟩
      · unfold naiveEdges
        rw [List.mem_filterMap]
        refine ⟨(pb, pa), h, ?_⟩
        show (if pb.domains.toFinset = ∅ ∨ pa.domains.toFinset = ∅ then none
          else if pb.domains.toFinset ∩ pa.domains.toFinset = ∅ then none
          else if minSim ≤
              ((pb.domains.toFinset ∩ pa.domains.toFinset).card : ℚ) /
              ((pb.domains.toFinset ∪ pa.domains.toFinset).card : ℚ)
          then some (pb.protein_id, pa.protein_id,
            pb.domains.toFinset ∩ pa.domains.toFinset,
            ((pb.domains.toFinset ∩ pa.domains.toFinset).card : ℚ) /
              ((pb.domains.toFinset ∪ pa.domains.toFinset).card : ℚ))
          else none) = _
        have hint' : pb.domains.toFinset ∩ pa.domains.toFinset ≠ ∅ := by
          rw [Finset.inter_comm]; exact hint
        have hnem' : ¬ (pb.domains.toFinset = ∅ ∨ pa.domains.toFinset = ∅) :=
          fun hc => hnem hc.symm
        rw [if_neg hnem', if_neg hint',
          if_pos (show minSim ≤ _ from by
            rw [Finset.inter_comm, Finset.union_comm, ← hS, ← hj]; exact hmin)]
      · unfold canonEdge
        rw [if_neg (show ¬ pb.protein_id ≤ pa.protein_id from not_le.mpr hlt)]
        simp only [Prod.mk.injEq]
        refine ⟨he1.symm, he2.symm, ?_, ?_⟩
        · rw [hS, Finset.inter_comm]
        · rw [hj, hS, Finset.inter_comm, Finset.union_comm]

theorem canonEdge_of_mem_computeSimilarities {data : List ProteinDom}
    {minSim : ℚ} (hnd : (data.map (·.protein_id)).Nodup)
    {e : String × String × Finset String × ℚ}
    (he : e ∈ computeSimilarities data minSim) : canonEdge e = e := by
  obtain ⟨pa, _, pb, _, he1, he2, hlt, _⟩ :=
    (mem_computeSimilarities_iff hnd).mp he
  unfold canonEdge
  rw [if_pos (show e.1 ≤ e.2.1 from by rw [he1, he2]; exact hlt.le)]

theorem mem_computeSimilarities_canon_iff {data : List ProteinDom}
    {minSim : ℚ} (hnd : (data.map (·.protein_id)).Nodup)
    {e : String × String × Finset String × ℚ} :
    e ∈ (computeSimilarities data minSim).map canonEdge ↔
      edgeSpec data minSim e := by
  rw [List.mem_map]
  constructor
  · rintro ⟨e0, he0, hc⟩
    rw [canonEdge_of_mem_computeSimilarities hnd he0] at hc
    exact hc ▸ (mem_computeSimilarities_iff hnd).mp he0
  · intro hspec
    have hm := (mem_computeSimilarities_iff hnd).mpr hspec
    exact ⟨e, hm, canonEdge_of_mem_computeSimilarities hnd hm⟩

/-- **C4.** On inputs with pairwise distinct protein ids and a threshold in
`[0,1]`, the inverted-index edge computation and the naive all-pairs
computation produce exactly the same set of unordered edges — same pairs,
same shared-domain sets, same Jaccard similarities. -/
theorem c4_inverted_index_equals_naive (data : List ProteinDom) (minSim : ℚ)
    (_h0 : 0 ≤ minSim) (_h1 : minSim ≤ 1)
    (hnd : (data.map (·.protein_id)).Nodup) :
    ∀ e, e ∈ (computeSimilarities data minSim).map canonEdge ↔
      e ∈ (naiveEdges data minSim).map canonEdge := by
  intro e
  rw [mem_computeSimilarities_canon_iff hnd, mem_naiveEdges_canon_iff hnd]

/-- Scenario A data for the C4 witness: `A{d1,d2}`, `B{d2,d3}`, `C{d3,d4}`. -/
def c4Data : List ProteinDom :=
  [⟨"A", ["d1", "d2"]⟩, ⟨"B", ["d2", "d3"]⟩, ⟨"C", ["d3", "d4"]⟩]

/-- Witness for C4 on Scenario A with `min_similarity = 0.1`, instantiated
at the edge `A–B` with shared `{d2}` and similarity 1/3. -/
theorem c4_inverted_index_equals_naive_witness :
    (0 ≤ (1 : ℚ)/10) ∧ ((1 : ℚ)/10 ≤ 1) ∧
    (c4Data.map (·.protein_id)).Nodup ∧
    (("A", "B", ({"d2"} : Finset String), (1 : ℚ)/3) ∈
        (computeSimilarities c4Data (1/10)).map canonEdge ↔
      ("A", "B", ({"d2"} : Finset String), (1 : ℚ)/3) ∈
        (naiveEdges c4Data (1/10)).map canonEdge) :=
  ⟨by norm_num, by norm_num, by decide,
    c4_inverted_index_equals_naive c4Data (1/10) (by norm_num) (by norm_num)
      (by decide) ("A", "B", ({"d2"} : Finset String), (1 : ℚ)/3)⟩

/-- **C5.** Every edge of the inverted-index computation has a non-empty
shared-domain set and similarity at or above the threshold (for any
threshold, including 0); its endpoints are canonically ordered; no edge
joins proteins with disjoint domain sets (in particular a protein with no
domains has no edges); and each unordered pair carries at most one edge. -/
theorem c5_similarity_edge_invariants (data : List ProteinDom) (minSim : ℚ)
    (_h0 : 0 ≤ minSim) (_h1 : minSim ≤ 1)
    (hnd : (data.map (·.protein_id)).Nodup) :
    ∀ e ∈ computeSimilarities data minSim,
      e.2.2.1 ≠ ∅ ∧
      minSim ≤ e.2.2.2 ∧
      e.1 < e.2.1 ∧
      (∀ pa ∈ data, ∀ pb ∈ data, pa.protein_id = e.1 → pb.protein_id = e.2.1 →
        pa.domains.toFinset ∩ pb.domains.toFinset ≠ ∅) ∧
      (∀ pr ∈ data, pr.domains = [] →
        pr.protein_id ≠ e.1 ∧ pr.protein_id ≠ e.2.1) ∧
      (∀ e' ∈ computeSimilarities data minSim,
        (e'.1 = e.1 ∧ e'.2.1 = e.2.1) ∨ (e'.1 = e.2.1 ∧ e'.2.1 = e.1) →
        e' = e) := by
  intro e he
  obtain ⟨pa, hpa, pb, hpb, he1, he2, hlt, hS, hSne, hj, hmin⟩ :=
    (mem_computeSimilarities_iff hnd).mp he
  refine ⟨hSne, hmin, by rw [he1, he2]; exact hlt, ?_, ?_, ?_⟩
  · intro qa hqa qb hqb hqa1 hqb1
    have hqa_pa : qa = pa :=
      List.inj_on_of_nodup_map hnd hqa hpa (hqa1.trans he1)
    have hqb_pb : qb = pb :=
      List.inj_on_of_nodup_map hnd hqb hpb (hqb1.trans he2)
    rw [hqa_pa, hqb_pb, ← hS]
    exact hSne
  · intro pr hpr hdom
    constructor
    · intro hc
      have hpr_pa : pr = pa :=
        List.inj_on_of_nodup_map hnd hpr hpa (hc.trans he1)
      apply hSne
      rw [hS, ← hpr_pa, hdom]
      simp
    · intro hc
      have hpr_pb : pr = pb :=
        List.inj_on_of_nodup_map hnd hpr hpb (hc.trans he2)
      apply hSne
      rw [hS, ← hpr_pb, hdom]
      simp
  · intro e' he' hor
    obtain ⟨qa, hqa, qb, hqb, he1', he2', hlt', hS', hSne', hj', hmin'⟩ :=
      (mem_computeSimilarities_iff hnd).mp he'
    rcases hor with ⟨h1, h2⟩ | ⟨h1, h2⟩
    · have hqa_pa : qa = pa := List.inj_on_of_nodup_map hnd hqa hpa
        ((he1'.symm.trans h1).trans he1)
      have hqb_pb : qb = pb := List.inj_on_of_nodup_map hnd hqb hpb
        ((he2'.symm.trans h2).trans he2)
      have h3 : e'.2.2.1 = e.2.2.1 := by
        rw [hS', hqa_pa, hqb_pb, ← hS]
      have h4 : e'.2.2.2 = e.2.2.2 := by
        rw [hj', h3, hqa_pa, hqb_pb, ← hj]
      exact Prod.ext h1 (Prod.ext h2 (Prod.ext h3 h4))
    · have hlt_e' : e'.1 < e'.2.1 := by rw [he1', he2']; exact hlt'
      have hlt_e : e.1 < e.2.1 := by rw [he1, he2]; exact hlt
      rw [h1, h2] at hlt_e'
      exact absurd hlt_e (not_lt.mpr hlt_e'.le)

/-- Scenario A data for the C5 witness. -/
def c5Data : List ProteinDom :=
  [⟨"A", ["d1", "d2"]⟩, ⟨"B", ["d2", "d3"]⟩, ⟨"C", ["d3", "d4"]⟩]

/-- Witness for C5: the `A–B` edge of Scenario A is produced and satisfies
all the invariants. -/
theorem c5_similarity_edge_invariants_witness :
    (("A", "B", ({"d2"} : Finset String), (1 : ℚ)/3) ∈
      computeSimilarities c5Data (1/10)) ∧
    (({"d2"} : Finset String) ≠ ∅ ∧
     (1 : ℚ)/10 ≤ ("A", "B", ({"d2"} : Finset String), (1 : ℚ)/3).2.2.2 ∧
     "A" < "B" ∧
     (∀ pa ∈ c5Data, ∀ pb ∈ c5Data, pa.protein_id = "A" → pb.protein_id = "B" →
       pa.domains.toFinset ∩ pb.domains.toFinset ≠ ∅) ∧
     (∀ pr ∈ c5Data, pr.domains = [] → pr.protein_id ≠ "A" ∧ pr.protein_id ≠ "B") ∧
     (∀ e' ∈ computeSimilarities c5Data (1/10),
       (e'.1 = "A" ∧ e'.2.1 = "B") ∨ (e'.1 = "B" ∧ e'.2.1 = "A") →
       e' = ("A", "B", ({"d2"} : Finset String), (1 : ℚ)/3))) := by
  have hnd : (c5Data.map (·.protein_id)).Nodup := by decide
  have hcard1 : (({"d2"} : Finset String)).card = 1 := by decide
  have hcard3 : (((⟨"A", ["d1", "d2"]⟩ : ProteinDom).domains.toFinset ∪
      (⟨"B", ["d2", "d3"]⟩ : ProteinDom).domains.toFinset)).card = 3 := by decide
  have hspec : edgeSpec c5Data (1/10)
      ("A", "B", ({"d2"} : Finset String), (1 : ℚ)/3) := by
    refine ⟨⟨"A", ["d1", "d2"]⟩, by decide, ⟨"B", ["d2", "d3"]⟩, by decide,
      rfl, rfl, by rw [String.lt_iff_toList_lt]; decide, by decide, by decide,
      ?_, ?_⟩
    · show (1 : ℚ)/3 = _
      rw [hcard1, hcard3]
      norm_num
    · show (1 : ℚ)/10 ≤ (1 : ℚ)/3
      norm_num
  have hmem : ("A", "B", ({"d2"} : Finset String), (1 : ℚ)/3) ∈
      computeSimilarities c5Data (1/10) :=
    (mem_computeSimilarities_iff hnd).mpr hspec
  exact ⟨hmem, c5_similarity_edge_invariants c5Data (1/10) (by norm_num)
    (by norm_num) hnd _ hmem⟩

end ProteinAnalysis
